import Mathlib

/-!
Verification of the resume parsing/trimming core of the job-application
assistant (src/tools/resume_bot.py), as a shallow embedding in Lean.

Strings are modelled as Lean `String` values manipulated through their
underlying `List Char`; Python text is UTF-8 and the functions under study
only treat ASCII specially, so the character-level embedding is faithful.
All definitions are direct translations of the Python source; helper
functions that exist only to express specification-side characterizations
are named with a `spec` suffix or documented as such.
-/

namespace ResumeBot

/-- Characters replaced by `[ \t]{2,}` in `normalize_text`'s whitespace
collapse (the Python regex class is exactly space and tab). -/
def isSpaceTab (c : Char) : Bool := c = ' ' || c = '\t'

/-- The character substitutions performed by `normalize_text`'s
`replacements` dict: en dash, em dash, middle dot and bullet become `-`,
the multiplication sign becomes `x`.  Every key is a single character and
no replacement character is itself a key, so the sequence of
`str.replace` calls is a character map. -/
def charmap (c : Char) : Char :=
  if c = Char.ofNat 0x2013 then '-'
  else if c = Char.ofNat 0x2014 then '-'
  else if c = Char.ofNat 0x00b7 then '-'
  else if c = Char.ofNat 0x2022 then '-'
  else if c = Char.ofNat 0x00d7 then 'x'
  else c

/-- `re.sub(r'[ \t]{2,}', ' ', text)`: every maximal run of two or more
spaces/tabs becomes a single space; an isolated space or tab is kept as
is.  Processing from the right: if the tail's collapse starts with a
space/tab, the current space/tab extends that run, which therefore has
length at least two and is replaced by one space. -/
def collapseWs : List Char → List Char
  | [] => []
  | c :: rest =>
    if isSpaceTab c then
      match collapseWs rest with
      | [] => [c]
      | w :: out => if isSpaceTab w then ' ' :: out else c :: w :: out
    else c :: collapseWs rest

/-- `normalize_text` from resume_bot.py: apply the replacement table, then
collapse runs of two or more spaces/tabs to a single space. -/
def normalize_text (s : String) : String := ⟨collapseWs (s.data.map charmap)⟩

/-- True when the list has no two adjacent space/tab characters. -/
def noWsPair : List Char → Bool
  | c :: d :: rest => (!(isSpaceTab c && isSpaceTab d)) && noWsPair (d :: rest)
  | _ => true

lemma noWsPair_tail {c : Char} {l : List Char} (h : noWsPair (c :: l) = true) :
    noWsPair l = true := by
  cases l with
  | nil => rfl
  | cons d r => simp [noWsPair] at h; exact h.2

lemma noWsPair_cons {c : Char} {l : List Char} (h1 : noWsPair l = true)
    (h2 : ∀ d ∈ l.head?, (isSpaceTab c && isSpaceTab d) = false) :
    noWsPair (c :: l) = true := by
  cases l with
  | nil => rfl
  | cons d r =>
    simp only [noWsPair, h1, Bool.and_true]
    have hd := h2 d rfl
    simp [hd]

lemma noWsPair_head {w : Char} {out : List Char} (h : noWsPair (w :: out) = true)
    (hw : isSpaceTab w = true) : ∀ d ∈ out.head?, isSpaceTab d = false := by
  intro d hd
  cases out with
  | nil => cases hd
  | cons y r =>
    simp only [List.head?_cons, Option.mem_def, Option.some.injEq] at hd
    subst hd
    simp only [noWsPair, Bool.and_eq_true, Bool.not_eq_true', Bool.and_eq_false_iff] at h
    rcases h.1 with h' | h'
    · rw [hw] at h'; cases h'
    · exact h'

lemma collapseWs_noWsPair (l : List Char) : noWsPair (collapseWs l) = true := by
  induction l with
  | nil => rfl
  | cons c rest ih =>
    simp only [collapseWs]
    by_cases hc : isSpaceTab c = true
    · simp only [hc, if_true]
      cases hrec : collapseWs rest with
      | nil => rfl
      | cons w out =>
        rw [hrec] at ih
        by_cases hw : isSpaceTab w = true
        · simp only [hw, if_true]
          exact noWsPair_cons (noWsPair_tail ih)
            (fun d hd => by rw [noWsPair_head ih hw d hd]; simp)
        · simp only [hw, Bool.false_eq_true, if_false]
          exact noWsPair_cons ih
            (fun d hd => by
              simp only [List.head?_cons, Option.mem_def, Option.some.injEq] at hd
              subst hd
              simp [hw])
    · simp only [hc, Bool.false_eq_true, if_false]
      exact noWsPair_cons ih
        (fun d _ => by simp [hc])

lemma collapseWs_of_noWsPair : ∀ l : List Char, noWsPair l = true → collapseWs l = l := by
  intro l
  induction l with
  | nil => intro _; rfl
  | cons c rest ih =>
    intro h
    have hrest : collapseWs rest = rest := ih (noWsPair_tail h)
    simp only [collapseWs, hrest]
    by_cases hc : isSpaceTab c = true
    · cases rest with
      | nil => simp [hc]
      | cons d r =>
        simp [noWsPair, hc] at h
        simp [hc, h.1]
    · simp [hc]

lemma collapseWs_mem : ∀ (l : List Char), ∀ c ∈ collapseWs l, c ∈ l ∨ c = ' ' := by
  intro l
  induction l with
  | nil => intro c hc; cases hc
  | cons a rest ih =>
    intro c hc
    simp only [collapseWs] at hc
    by_cases ha : isSpaceTab a = true
    · simp only [ha, if_true] at hc
      cases hrec : collapseWs rest with
      | nil =>
        rw [hrec] at hc
        simp at hc
        subst hc; exact Or.inl (List.mem_cons_self _ _)
      | cons w out =>
        rw [hrec] at hc
        by_cases hw : isSpaceTab w = true
        · simp only [hw, if_true] at hc
          rcases List.mem_cons.mp hc with h | h
          · exact Or.inr h
          · have : c ∈ collapseWs rest := by rw [hrec]; exact List.mem_cons_of_mem _ h
            rcases ih c this with h' | h'
            · exact Or.inl (List.mem_cons_of_mem _ h')
            · exact Or.inr h'
        · simp only [hw] at hc
          simp only [Bool.false_eq_true, if_false] at hc
          rcases List.mem_cons.mp hc with h | h
          · subst h; exact Or.inl (List.mem_cons_self _ _)
          · have : c ∈ collapseWs rest := by rw [hrec]; exact h
            rcases ih c this with h' | h'
            · exact Or.inl (List.mem_cons_of_mem _ h')
            · exact Or.inr h'
    · simp only [ha] at hc
      simp only [Bool.false_eq_true, if_false] at hc
      rcases List.mem_cons.mp hc with h | h
      · subst h; exact Or.inl (List.mem_cons_self _ _)
      · rcases ih c h with h' | h'
        · exact Or.inl (List.mem_cons_of_mem _ h')
        · exact Or.inr h'

lemma charmap_charmap (c : Char) : charmap (charmap c) = charmap c := by
  have h : charmap c = '-' ∨ charmap c = 'x' ∨ charmap c = c := by
    unfold charmap
    split
    · exact Or.inl rfl
    · split
      · exact Or.inl rfl
      · split
        · exact Or.inl rfl
        · split
          · exact Or.inl rfl
          · split
            · exact Or.inr (Or.inl rfl)
            · exact Or.inr (Or.inr rfl)
  rcases h with h | h | h
  · rw [h]; decide
  · rw [h]; decide
  · rw [h]; exact h

lemma map_fixed {f : Char → Char} : ∀ (l : List Char), (∀ c ∈ l, f c = c) → l.map f = l := by
  intro l
  induction l with
  | nil => intro _; rfl
  | cons a r ih =>
    intro h
    simp only [List.map_cons]
    rw [h a (List.mem_cons_self _ _), ih (fun c hc => h c (List.mem_cons_of_mem _ hc))]

/-- C8: normalize_text is idempotent: for every string s,
normalize_text (normalize_text s) = normalize_text s. -/
theorem normalize_text_idempotent (s : String) :
    normalize_text (normalize_text s) = normalize_text s := by
  unfold normalize_text
  apply congrArg String.mk
  have hdata : (String.mk (collapseWs (s.data.map charmap))).data
      = collapseWs (s.data.map charmap) := rfl
  rw [hdata]
  have hfix : ∀ c ∈ collapseWs (s.data.map charmap), charmap c = c := by
    intro c hc
    rcases collapseWs_mem _ c hc with h | h
    · rcases List.mem_map.mp h with ⟨a, _, ha⟩
      rw [← ha]; exact charmap_charmap a
    · subst h; rfl
  rw [map_fixed _ hfix]
  exact collapseWs_of_noWsPair _ (collapseWs_noWsPair _)

/-! String helpers shared by the embedded functions.  They mirror the
Python string primitives used by resume_bot.py (str.strip, str.lower,
substring containment, str.splitlines) at the character-list level. -/

/-- Python whitespace for str.strip and the regex class backslash-s
(ASCII range): space, tab, newline, carriage return, vertical tab,
form feed. -/
def isWsCh (c : Char) : Bool :=
  c = ' ' || c = '\t' || c = '\n' || c = '\r' || c = '\x0b' || c = '\x0c'

def rstripL (l : List Char) : List Char := (l.reverse.dropWhile isWsCh).reverse

def stripL (l : List Char) : List Char := rstripL (l.dropWhile isWsCh)

/-- Python str.strip(). -/
def strip (s : String) : String := ⟨stripL s.data⟩

/-- Python str.rstrip(). -/
def rstrip (s : String) : String := ⟨rstripL s.data⟩

/-- Python str.splitlines() restricted to the newline terminator (the
only terminator occurring in the program's inputs): split on each
newline and drop a final empty piece. -/
def splitLinesL : List Char → List (List Char)
  | [] => []
  | c :: t =>
    if c = '\n' then [] :: splitLinesL t
    else
      match splitLinesL t with
      | [] => [[c]]
      | l :: ls => (c :: l) :: ls

def splitLines (s : String) : List String := (splitLinesL s.data).map String.mk

/-- needle taken as a leading piece of hay. -/
def isPreL : List Char → List Char → Bool
  | [], _ => true
  | _ :: _, [] => false
  | a :: as, b :: bs => a = b && isPreL as bs

def hasSubL (needle : List Char) : List Char → Bool
  | [] => needle.isEmpty
  | c :: rest => isPreL needle (c :: rest) || hasSubL needle rest

/-- Python `needle in hay` on strings. -/
def hasSubStr (hay needle : String) : Bool := hasSubL needle.data hay.data

/-- Python str.lower on the ASCII range used by the program. -/
def lowerChar (c : Char) : Char :=
  if 'A' ≤ c && c ≤ 'Z' then Char.ofNat (c.toNat + 32) else c

def toLowerS (s : String) : String := ⟨s.data.map lowerChar⟩

/-- Python str.startswith. -/
def startsWithS (s pre : String) : Bool := isPreL pre.data s.data

/-- Python s[n:] (character based slicing). -/
def dropS (s : String) (n : Nat) : String := ⟨s.data.drop n⟩

/-! Section splitter (split_sections) and its dashed-separator pattern. -/

/-- A dash or regex whitespace character: the repeated class of
DASH_LINE's trailing part. -/
def dashOrWs (c : Char) : Bool := c = '-' || isWsCh c

/-- Matcher for the part of DASH_LINE after its second mandatory dash:
optional whitespace, a third dash, then any mix of dashes/whitespace. -/
def dashFrom1 (l : List Char) : Bool :=
  match l.dropWhile isWsCh with
  | c :: r => c = '-' && r.all dashOrWs
  | [] => false

/-- Matcher for the part of DASH_LINE after its first mandatory dash:
optional whitespace, a second dash, then dashFrom1. -/
def dashFrom2 (l : List Char) : Bool :=
  match l.dropWhile isWsCh with
  | c :: r => c = '-' && dashFrom1 r
  | [] => false

/-- DASH_LINE from resume_bot.py: the anchored regex
`-` `\s*` `-` `\s*` `-` `\s*` `[-\s]*` applied to the whole line. -/
def DASH_LINE (s : String) : Bool :=
  match s.data with
  | c :: r => c = '-' && dashFrom2 r
  | [] => false

/-- Presence test for a key of the insertion-ordered dict model. -/
def hasKey (d : List (String × List String)) (k : String) : Bool :=
  d.any (fun p => p.1 = k)

/-- Python dict.setdefault(k, []) on an insertion-ordered dict. -/
def dictSetdefault (d : List (String × List String)) (k : String) :
    List (String × List String) :=
  if hasKey d k then d else d ++ [(k, [])]

/-- Append v to the list stored at key k (the key is always present when
split_sections calls this). -/
def dictAppend : List (String × List String) → String → String → List (String × List String)
  | [], _, _ => []
  | (k', vs) :: rest, k, v =>
    if k' = k then (k', vs ++ [v]) :: rest else (k', vs) :: dictAppend rest k v

/-- Header-candidate test of split_sections: no URL or at-sign pattern
(regex `https?://|@` searched in the stripped line). -/
def isHeaderCandidate (s : String) : Bool :=
  !(hasSubStr s "http://" || hasSubStr s "https://" || s.data.contains '@')

/-- The lookahead of split_sections: skip blank lines, then test whether
the next line is a dashed separator (false at end of input). -/
def lookaheadDash (rest : List String) : Bool :=
  match rest.dropWhile (fun x => strip x = "") with
  | x :: _ => DASH_LINE (strip x)
  | [] => false

/-- The while-loop of split_sections, with the line index replaced by the
remaining-lines list.  The first argument is fuel; every iteration
consumes at least one line, so fuel equal to the number of lines is never
exhausted and the zero-fuel branch (returning the accumulated state, like
loop exit) is unreachable. -/
def splitGoF : Nat → List String → Option String → List (String × List String) →
    List String → List String × List (String × List String)
  | 0, _, _, sections, hb => (hb, sections)
  | _ + 1, [], _, sections, hb => (hb, sections)
  | f + 1, l :: rest, current, sections, hb =>
    let stripped := strip l
    if stripped = "" then
      match current with
      | none => splitGoF f rest current sections (hb ++ [""])
      | some c => splitGoF f rest current (dictAppend sections c "") hb
    else if DASH_LINE stripped then
      splitGoF f rest current sections hb
    else if isHeaderCandidate stripped && lookaheadDash rest then
      splitGoF f (rest.dropWhile (fun x => strip x = "")).tail (some stripped)
        (dictSetdefault sections stripped) hb
    else
      match current with
      | none => splitGoF f rest current sections (hb ++ [stripped])
      | some c => splitGoF f rest current (dictAppend sections c stripped) hb

/-- split_sections from resume_bot.py: normalize each rstripped line,
then run the header/dash scanning loop.  Returns the header block and the
title-to-body mapping in insertion order. -/
def split_sections (text : String) : List String × List (String × List String) :=
  let lines := (splitLines text).map (fun l => normalize_text (rstrip l))
  splitGoF lines.length lines none [] []

lemma isWsCh_dash : isWsCh '-' = false := by decide

lemma dashOrWs_of_ws {c : Char} (h : isWsCh c = true) : dashOrWs c = true := by
  simp [dashOrWs, h]

lemma ws_ne_dash {c : Char} (h : isWsCh c = true) : ¬c = '-' := by
  intro hc; subst hc; exact absurd h (by decide)

lemma dashFrom1_iff : ∀ l : List Char,
    dashFrom1 l = true ↔ ((∀ c ∈ l, dashOrWs c = true) ∧ 1 ≤ l.count '-') := by
  intro l
  induction l with
  | nil => simp [dashFrom1]
  | cons c r ih =>
    by_cases hw : isWsCh c = true
    · have h1 : dashFrom1 (c :: r) = dashFrom1 r := by
        simp only [dashFrom1, List.dropWhile_cons, hw, if_true]
      have hcount : (c :: r).count '-' = r.count '-' :=
        List.count_cons_of_ne (Ne.symm (ws_ne_dash hw)) r
      rw [h1, ih, List.forall_mem_cons, hcount]
      simp [dashOrWs_of_ws hw]
    · by_cases hc : c = '-'
      · subst hc
        have h1 : dashFrom1 ('-' :: r) = r.all dashOrWs := by
          simp [dashFrom1, List.dropWhile_cons, isWsCh_dash]
        rw [h1, List.forall_mem_cons, List.count_cons_self]
        simp [List.all_eq_true, dashOrWs]
      · have h1 : dashFrom1 (c :: r) = false := by
          simp [dashFrom1, List.dropWhile_cons, hw, hc]
        rw [h1, List.forall_mem_cons]
        simp [dashOrWs, hc, hw]

lemma dashFrom2_iff : ∀ l : List Char,
    dashFrom2 l = true ↔ ((∀ c ∈ l, dashOrWs c = true) ∧ 2 ≤ l.count '-') := by
  intro l
  induction l with
  | nil => simp [dashFrom2]
  | cons c r ih =>
    by_cases hw : isWsCh c = true
    · have h1 : dashFrom2 (c :: r) = dashFrom2 r := by
        simp only [dashFrom2, List.dropWhile_cons, hw, if_true]
      have hcount : (c :: r).count '-' = r.count '-' :=
        List.count_cons_of_ne (Ne.symm (ws_ne_dash hw)) r
      rw [h1, ih, List.forall_mem_cons, hcount]
      simp [dashOrWs_of_ws hw]
    · by_cases hc : c = '-'
      · subst hc
        have h1 : dashFrom2 ('-' :: r) = dashFrom1 r := by
          simp [dashFrom2, List.dropWhile_cons, isWsCh_dash]
        rw [h1, dashFrom1_iff, List.forall_mem_cons, List.count_cons_self]
        simp [dashOrWs]
      · have h1 : dashFrom2 (c :: r) = false := by
          simp [dashFrom2, List.dropWhile_cons, hw, hc]
        rw [h1, List.forall_mem_cons]
        simp [dashOrWs, hc, hw]

/-- C5 (amended): in split_sections, a line is a dashed separator exactly
when it starts with a `-`, consists solely of `-` and whitespace
characters, and contains at least three `-` characters; a line of one or
two dashes is NOT a separator. -/
theorem dash_line_requires_three_dashes (s : String) :
    DASH_LINE s = true ↔
      ((∀ c ∈ s.data, dashOrWs c = true) ∧ 3 ≤ s.data.count '-' ∧
        s.data.head? = some '-') := by
  obtain ⟨l⟩ := s
  show DASH_LINE ⟨l⟩ = true ↔ _
  cases l with
  | nil => simp [DASH_LINE]
  | cons c r =>
    by_cases hc : c = '-'
    · subst hc
      have h1 : DASH_LINE ⟨'-' :: r⟩ = dashFrom2 r := by
        simp [DASH_LINE]
      rw [h1, dashFrom2_iff]
      show _ ↔ ((∀ c ∈ '-' :: r, dashOrWs c = true) ∧ _ ∧ ('-' :: r).head? = some '-')
      rw [List.forall_mem_cons, List.count_cons_self]
      simp [dashOrWs]
    · have h1 : DASH_LINE ⟨c :: r⟩ = false := by
        simp [DASH_LINE, hc]
      rw [h1]
      show _ ↔ (_ ∧ _ ∧ (c :: r).head? = some '-')
      simp [hc]

/-- C5 counterexample: a line of a single dash or two dashes is not
treated as a dashed separator, contradicting the claim; concretely, in
"Title\n--\nbody" the "--" line does not make "Title" a section header,
and everything lands in the header block. -/
theorem dash_line_one_dash_not_separator :
    DASH_LINE "-" = false ∧ DASH_LINE "--" = false ∧
      split_sections "Title\n--\nbody" = (["Title", "--", "body"], []) := by
  decide

/-! Structured document model (the dicts built by
build_sections_from_tailored_text and consumed by trim_sections_once). -/

structure Entry where
  title : String
  subtitle : String
  date : String
  bullets : List String
deriving DecidableEq, Repr, Inhabited

structure Section where
  title : String
  entries : List Entry
  bullets : List String
  paragraphs : List String
  skills : List String
deriving DecidableEq, Repr, Inhabited

def emptySection : Section := ⟨"", [], [], [], []⟩

/-! Page-fit trimmer (trim_sections_once). -/

/-- The priority list of trim_sections_once, verbatim from the code
(note: it contains no "certifications" entry). -/
def trimPriority : List String :=
  ["additional information", "projects", "professional experience", "education",
   "key skills / technical skills", "key skills", "technical skills",
   "professional summary"]

/-- bullet_required_sections from trim_sections_once. -/
def bulletRequiredSections : List String :=
  ["projects", "professional experience", "work experience/projects",
   "volunteer experience"]

/-- find_section: index of the first section whose lowercased title equals
the (already lowercase) priority title. -/
def findSecIdx (t : String) : List Section → Option Nat
  | [] => none
  | s :: rest =>
    if toLowerS s.title = t then some 0 else (findSecIdx t rest).map (· + 1)

def entryHasAny (e : Entry) : Bool :=
  e.title ≠ "" || e.subtitle ≠ "" || e.date ≠ "" || !e.bullets.isEmpty

/-- _section_has_content from resume_bot.py (its doubled inner condition
is logically the single test below). -/
def section_has_content (s : Section) : Bool :=
  !s.skills.isEmpty || !s.bullets.isEmpty || !s.paragraphs.isEmpty ||
    s.entries.any entryHasAny

/-- The reversed-order scan over entries: find the LAST entry that has
bullets, pop its last bullet.  Returns the updated entry list and the
updated entry, or none when no entry has bullets (also when there are no
entries). -/
def popEntryBullet : List Entry → Option (List Entry × Entry)
  | [] => none
  | e :: rest =>
    match popEntryBullet rest with
    | some (rest2, popped) => some (e :: rest2, popped)
    | none =>
      if e.bullets.isEmpty then none
      else
        let e2 := { e with bullets := e.bullets.dropLast }
        some (e2 :: rest, e2)

/-- Python list.remove: delete the first element equal to the argument. -/
def removeFirstEntry : List Entry → Entry → List Entry
  | [], _ => []
  | x :: r, a => if x = a then r else x :: removeFirstEntry r a

inductive TrimStep where
  | changed (s : Section)
  | removed
  | skip
deriving DecidableEq, Repr

/-- The body of trim_sections_once for one found section, given the
(lowercase) priority title t it was found under.  `skip` means the loop
falls through to the next priority title without returning. -/
def trimSectionAt (t : String) (s : Section) : TrimStep :=
  match popEntryBullet s.entries with
  | some (es, popped) =>
    let es2 :=
      if toLowerS s.title ∈ bulletRequiredSections ∧ popped.bullets = [] then
        removeFirstEntry es popped
      else es
    .changed { s with entries := es2 }
  | none =>
    if s.bullets ≠ [] then .changed { s with bullets := s.bullets.dropLast }
    else if s.skills ≠ [] then .changed { s with skills := s.skills.dropLast }
    else if s.paragraphs ≠ [] ∧
        ¬(t = "professional summary" ∧ s.paragraphs.length ≤ 1) then
      .changed { s with paragraphs := s.paragraphs.dropLast }
    else if section_has_content s = false then .removed
    else .skip

/-- The priority loop of trim_sections_once.  Python's
`sections.remove(section)` deletes the first list element equal to the
found section; since the found index is the first whose lowered title
matches and equal sections share a title, that first equal element is the
found one, so removal is eraseIdx at the found index. -/
def trimGo (ss : List Section) : List String → Bool × List Section
  | [] => (false, ss)
  | t :: rest =>
    match findSecIdx t ss with
    | none => trimGo ss rest
    | some i =>
      match trimSectionAt t (ss.getD i emptySection) with
      | .changed s2 => (true, ss.set i s2)
      | .removed => (true, ss.eraseIdx i)
      | .skip => trimGo ss rest

/-- trim_sections_once from resume_bot.py, as a pure function returning
(whether something was removed, the updated section list). -/
def trim_sections_once (ss : List Section) : Bool × List Section :=
  trimGo ss trimPriority

def entryCount (e : Entry) : Nat := 1 + e.bullets.length

def sectionCount (s : Section) : Nat :=
  1 + s.bullets.length + s.paragraphs.length + s.skills.length +
    (s.entries.map entryCount).sum

def totalCount (ss : List Section) : Nat := (ss.map sectionCount).sum

lemma popEntryBullet_sum : ∀ es es2 popped,
    popEntryBullet es = some (es2, popped) →
    ((es2.map entryCount).sum + 1 = (es.map entryCount).sum ∧ popped ∈ es2) := by
  intro es
  induction es with
  | nil => intro es2 popped h; cases h
  | cons e rest ih =>
    intro es2 popped h
    simp only [popEntryBullet] at h
    cases hrec : popEntryBullet rest with
    | some p =>
      obtain ⟨rest2, popped2⟩ := p
      rw [hrec] at h
      simp only [Option.some.injEq, Prod.mk.injEq] at h
      obtain ⟨h1, h2⟩ := h
      subst h1
      subst h2
      obtain ⟨hsum, hmem⟩ := ih rest2 popped2 hrec
      constructor
      · simp only [List.map_cons, List.sum_cons]
        omega
      · exact List.mem_cons_of_mem _ hmem
    | none =>
      rw [hrec] at h
      by_cases hb : e.bullets.isEmpty = true
      · simp [hb] at h
      · simp only [hb, Bool.false_eq_true, if_false, Option.some.injEq,
          Prod.mk.injEq] at h
        obtain ⟨h1, h2⟩ := h
        subst h2
        subst h1
        constructor
        · simp only [List.map_cons, List.sum_cons, entryCount]
          have : e.bullets.length ≠ 0 := by
            intro h0
            exact hb (List.isEmpty_iff_length_eq_zero.mpr h0)
          have hlen : e.bullets.dropLast.length = e.bullets.length - 1 :=
            List.length_dropLast _
          simp only [hlen]
          omega
        · exact List.mem_cons_self _ _

lemma removeFirstEntry_sum : ∀ (xs : List Entry) (a : Entry), a ∈ xs →
    ((removeFirstEntry xs a).map entryCount).sum + entryCount a
      = (xs.map entryCount).sum := by
  intro xs
  induction xs with
  | nil => intro a h; cases h
  | cons x r ih =>
    intro a h
    simp only [removeFirstEntry]
    by_cases hx : x = a
    · subst hx
      simp only [if_true, List.map_cons, List.sum_cons]
      omega
    · simp only [hx, if_false, List.map_cons, List.sum_cons]
      have hmem : a ∈ r := by
        rcases List.mem_cons.mp h with h' | h'
        · exact absurd h'.symm hx
        · exact h'
      have := ih a hmem
      omega

lemma trimSectionAt_changed (t : String) (s s2 : Section)
    (h : trimSectionAt t s = .changed s2) : sectionCount s2 < sectionCount s := by
  unfold trimSectionAt at h
  cases hpop : popEntryBullet s.entries with
  | some p =>
    obtain ⟨es, popped⟩ := p
    rw [hpop] at h
    simp only [TrimStep.changed.injEq] at h
    obtain ⟨hsum, hmem⟩ := popEntryBullet_sum s.entries es popped hpop
    by_cases hcond : toLowerS s.title ∈ bulletRequiredSections ∧ popped.bullets = []
    · rw [if_pos hcond] at h
      subst h
      have hrem := removeFirstEntry_sum es popped hmem
      simp only [sectionCount]
      omega
    · rw [if_neg hcond] at h
      subst h
      simp only [sectionCount]
      omega
  | none =>
    rw [hpop] at h
    by_cases h1 : s.bullets ≠ []
    · rw [if_pos h1] at h
      simp only [TrimStep.changed.injEq] at h
      subst h
      simp only [sectionCount]
      have : s.bullets.length ≠ 0 := by
        intro h0; exact h1 (List.length_eq_zero.mp h0)
      have hlen : s.bullets.dropLast.length = s.bullets.length - 1 :=
        List.length_dropLast _
      omega
    · rw [if_neg h1] at h
      by_cases h2 : s.skills ≠ []
      · rw [if_pos h2] at h
        simp only [TrimStep.changed.injEq] at h
        subst h
        simp only [sectionCount]
        have : s.skills.length ≠ 0 := by
          intro h0; exact h2 (List.length_eq_zero.mp h0)
        have hlen : s.skills.dropLast.length = s.skills.length - 1 :=
          List.length_dropLast _
        omega
      · rw [if_neg h2] at h
        by_cases h3 : s.paragraphs ≠ [] ∧
            ¬(t = "professional summary" ∧ s.paragraphs.length ≤ 1)
        · rw [if_pos h3] at h
          simp only [TrimStep.changed.injEq] at h
          subst h
          simp only [sectionCount]
          have : s.paragraphs.length ≠ 0 := by
            intro h0; exact h3.1 (List.length_eq_zero.mp h0)
          have hlen : s.paragraphs.dropLast.length = s.paragraphs.length - 1 :=
            List.length_dropLast _
          omega
        · rw [if_neg h3] at h
          by_cases h4 : section_has_content s = false
          · rw [if_pos h4] at h; cases h
          · rw [if_neg h4] at h; cases h

lemma totalCount_set : ∀ (ss : List Section) (i : Nat) (s2 : Section),
    i < ss.length →
    totalCount (ss.set i s2) + sectionCount (ss.getD i emptySection)
      = totalCount ss + sectionCount s2 := by
  intro ss
  induction ss with
  | nil => intro i s2 h; cases h
  | cons x r ih =>
    intro i s2 h
    cases i with
    | zero =>
      simp only [List.set, totalCount, List.map_cons, List.sum_cons, List.getD,
        List.get?_cons_zero]
      simp [totalCount] at *
      omega
    | succ n =>
      have hn : n < r.length := by simpa using h
      have := ih n s2 hn
      simp only [List.set, totalCount, List.map_cons, List.sum_cons] at *
      have hgd : (x :: r).getD (n + 1) emptySection = r.getD n emptySection := by
        simp [List.getD]
      rw [hgd]
      omega

lemma totalCount_erase : ∀ (ss : List Section) (i : Nat),
    i < ss.length →
    totalCount (ss.eraseIdx i) + sectionCount (ss.getD i emptySection)
      = totalCount ss := by
  intro ss
  induction ss with
  | nil => intro i h; cases h
  | cons x r ih =>
    intro i h
    cases i with
    | zero =>
      simp only [List.eraseIdx, totalCount, List.map_cons, List.sum_cons, List.getD,
        List.get?_cons_zero]
      simp [totalCount]
      omega
    | succ n =>
      have hn : n < r.length := by simpa using h
      have := ih n hn
      simp only [List.eraseIdx, totalCount, List.map_cons, List.sum_cons] at *
      have hgd : (x :: r).getD (n + 1) emptySection = r.getD n emptySection := by
        simp [List.getD]
      rw [hgd]
      omega

lemma findSecIdx_lt : ∀ (ss : List Section) (t : String) (i : Nat),
    findSecIdx t ss = some i → i < ss.length := by
  intro ss
  induction ss with
  | nil => intro t i h; cases h
  | cons x r ih =>
    intro t i h
    simp only [findSecIdx] at h
    by_cases hx : toLowerS x.title = t
    · rw [if_pos hx] at h
      simp only [Option.some.injEq] at h
      subst h
      simp
    · rw [if_neg hx] at h
      cases hrec : findSecIdx t r with
      | none => rw [hrec] at h; cases h
      | some n =>
        rw [hrec] at h
        simp only [Option.map_some', Option.some.injEq] at h
        subst h
        have := ih t n hrec
        simpa using Nat.succ_lt_succ this

lemma findSecIdx_none : ∀ (ss : List Section) (t : String),
    (∀ s ∈ ss, toLowerS s.title ≠ t) → findSecIdx t ss = none := by
  intro ss
  induction ss with
  | nil => intro t _; rfl
  | cons x r ih =>
    intro t h
    simp only [findSecIdx]
    rw [if_neg (h x (List.mem_cons_self _ _))]
    rw [ih t (fun s hs => h s (List.mem_cons_of_mem _ hs))]
    rfl

lemma trimGo_monotone : ∀ (ts : List String) (ss : List Section),
    ((trimGo ss ts).1 = false ∧ (trimGo ss ts).2 = ss) ∨
      ((trimGo ss ts).1 = true ∧ totalCount (trimGo ss ts).2 < totalCount ss) := by
  intro ts
  induction ts with
  | nil => intro ss; exact Or.inl ⟨rfl, rfl⟩
  | cons t rest ih =>
    intro ss
    cases hfind : findSecIdx t ss with
    | none =>
      have hgo : trimGo ss (t :: rest) = trimGo ss rest := by
        simp [trimGo, hfind]
      rw [hgo]
      exact ih ss
    | some i =>
      have hi : i < ss.length := findSecIdx_lt ss t i hfind
      cases hstep : trimSectionAt t (ss.getD i emptySection) with
      | changed s2 =>
        have hgo : trimGo ss (t :: rest) = (true, ss.set i s2) := by
          simp only [trimGo, hfind]
          rw [hstep]
        rw [hgo]
        refine Or.inr ⟨rfl, ?_⟩
        have hlt := trimSectionAt_changed _ _ _ hstep
        have := totalCount_set ss i s2 hi
        simp only at *
        omega
      | removed =>
        have hgo : trimGo ss (t :: rest) = (true, ss.eraseIdx i) := by
          simp only [trimGo, hfind]
          rw [hstep]
        rw [hgo]
        refine Or.inr ⟨rfl, ?_⟩
        have := totalCount_erase ss i hi
        have hpos : 1 ≤ sectionCount (ss.getD i emptySection) := by
          simp only [sectionCount]; omega
        simp only at *
        omega
      | skip =>
        have hgo : trimGo ss (t :: rest) = trimGo ss rest := by
          simp only [trimGo, hfind]
          rw [hstep]
        rw [hgo]
        exact ih ss

/-- C2 (amended): every call to trim_sections_once either reports no
change and leaves the section list unchanged, or reports a change and
strictly decreases the combined total of bullets, paragraphs, skills,
entries and sections; it never increases any count.  (The decrease is not
always exactly one: removing the last bullet of an entry of a
bullet-required section also removes the emptied entry.) -/
theorem trim_once_monotone (ss : List Section) :
    ((trim_sections_once ss).1 = false ∧ (trim_sections_once ss).2 = ss) ∨
      ((trim_sections_once ss).1 = true ∧
        totalCount (trim_sections_once ss).2 < totalCount ss) :=
  trimGo_monotone trimPriority ss

/-- C2 counterexample: on a "Projects" section holding one entry with a
single bullet, trim_sections_once returns true but removes BOTH the
bullet and the emptied entry, decreasing the combined total by exactly
two units, not one. -/
theorem trim_once_removes_two_units :
    trim_sections_once [⟨"Projects", [⟨"P", "", "", ["b"]⟩], [], [], []⟩] =
        (true, [⟨"Projects", [], [], [], []⟩]) ∧
      totalCount [⟨"Projects", [], [], [], []⟩] + 2 =
        totalCount [⟨"Projects", [⟨"P", "", "", ["b"]⟩], [], [], []⟩] := by
  decide

/-- C3 (amended): the trim priority list of the code has no
"certifications" entry: it is "additional information", "projects",
"professional experience", "education", "key skills / technical skills",
"key skills", "technical skills", "professional summary".  Consequently,
when no "additional information" section exists, trim_sections_once goes
straight to "projects": for every model whose first "projects"-titled
section has no entries and non-empty flat bullets, the call pops that
section's last bullet — regardless of any "certifications" section, which
is never considered. -/
theorem trim_priority_projects_first (ss : List Section) (i : Nat)
    (h1 : ∀ s ∈ ss, toLowerS s.title ≠ "additional information")
    (h2 : findSecIdx "projects" ss = some i)
    (h3 : (ss.getD i emptySection).entries = [])
    (h4 : (ss.getD i emptySection).bullets ≠ []) :
    trim_sections_once ss =
      (true, ss.set i { ss.getD i emptySection with
        bullets := (ss.getD i emptySection).bullets.dropLast }) := by
  have hnone := findSecIdx_none ss "additional information" h1
  have hstep : trimSectionAt "projects" (ss.getD i emptySection) =
      .changed { ss.getD i emptySection with
        bullets := (ss.getD i emptySection).bullets.dropLast } := by
    unfold trimSectionAt
    rw [h3]
    simp only [popEntryBullet]
    rw [if_pos h4, h3]
  show trimGo ss trimPriority = _
  have h5 : trimGo ss trimPriority =
      trimGo ss ["projects", "professional experience", "education",
        "key skills / technical skills", "key skills", "technical skills",
        "professional summary"] := by
    simp only [trimPriority, trimGo, hnone]
  rw [h5]
  simp only [trimGo, h2]
  rw [hstep]

/-- C3 witness: a single two-bullet "Projects" section (no
"additional information" present) gets its last flat bullet popped. -/
theorem trim_priority_projects_first_witness :
    trim_sections_once [⟨"Projects", [], ["a", "b"], [], []⟩] =
      (true, [⟨"Projects", [], ["a"], [], []⟩]) := by
  have h := trim_priority_projects_first [⟨"Projects", [], ["a", "b"], [], []⟩] 0
    (by decide) (by decide) (by decide) (by decide)
  exact h.trans (by decide)

/-- C3 counterexample: with a trimmable "Certifications" section and no
"additional information" section present, trim_sections_once trims the
"Projects" section and leaves "Certifications" untouched, contradicting
the claimed priority order in which "certifications" precedes
"projects". -/
theorem trim_certifications_not_considered :
    trim_sections_once
        [⟨"Certifications", [], ["c1"], [], []⟩, ⟨"Projects", [], ["p1"], [], []⟩] =
      (true,
        [⟨"Certifications", [], ["c1"], [], []⟩, ⟨"Projects", [], [], [], []⟩]) := by
  decide

/-- The render/measure/trim loop: iterate trim_sections_once n times. -/
def trimIter : Nat → List Section → List Section
  | 0, ss => ss
  | n + 1, ss => trimIter n (trim_sections_once ss).2

/-- C7: repeatedly applying trim_sections_once to any section list
eventually returns false (the trimming loop terminates); in particular,
on a model with exactly one (priority-listed) section containing one
bullet, the first call removes the bullet and returns true, the second
call removes the now-empty section and returns true, and the third call
returns false. -/
theorem trim_loop_terminates :
    (∀ ss : List Section, ∃ n, (trim_sections_once (trimIter n ss)).1 = false) ∧
      (trim_sections_once [⟨"Projects", [], ["b"], [], []⟩] =
          (true, [⟨"Projects", [], [], [], []⟩]) ∧
        trim_sections_once [⟨"Projects", [], [], [], []⟩] = (true, []) ∧
        trim_sections_once ([] : List Section) = (false, [])) := by
  constructor
  · have main : ∀ N ss, totalCount ss ≤ N →
        ∃ n, (trim_sections_once (trimIter n ss)).1 = false := by
      intro N
      induction N with
      | zero =>
        intro ss h
        rcases trim_once_monotone ss with ⟨hf, _⟩ | ⟨_, hlt⟩
        · exact ⟨0, hf⟩
        · omega
      | succ N ih =>
        intro ss h
        rcases trim_once_monotone ss with ⟨hf, _⟩ | ⟨_, hlt⟩
        · exact ⟨0, hf⟩
        · obtain ⟨n, hn⟩ := ih (trim_sections_once ss).2 (by omega)
          exact ⟨n + 1, hn⟩
    intro ss
    exact main (totalCount ss) ss (le_refl _)
  · exact ⟨by decide, by decide, by decide⟩

/-! Keyword extractor (extract_keywords). -/

/-- The characters admitted after the leading letter by the token regex
`[a-zA-Z][a-zA-Z0-9\+\#\-]+`. -/
def isWordChar (c : Char) : Bool :=
  c.isAlpha || c.isDigit || c = '+' || c = '#' || c = '-'

/-- Left-to-right scanner equivalent to re.findall with the token
pattern: a token starts at a letter, greedily extends over word
characters, and must have length at least two.  The first argument
accumulates the current in-progress token in reverse. -/
def tokensGo : List Char → List Char → List String
  | tok, [] => if 2 ≤ tok.length then [⟨tok.reverse⟩] else []
  | tok, c :: rest =>
    if tok.isEmpty then
      if c.isAlpha then tokensGo [c] rest else tokensGo [] rest
    else
      if isWordChar c then tokensGo (c :: tok) rest
      else (if 2 ≤ tok.length then [⟨tok.reverse⟩] else []) ++ tokensGo [] rest

/-- re.findall(r'[a-zA-Z][a-zA-Z0-9\+\#\-]+', ...) over a character
list. -/
def findTokens (l : List Char) : List String := tokensGo [] l

/-- STOPWORDS from resume_bot.py. -/
def STOPWORDS : List String :=
  ["the", "and", "a", "an", "to", "of", "in", "for", "with", "on", "at",
   "by", "from", "as", "is", "are", "be", "this", "that", "it", "or", "we",
   "you", "your", "our", "their", "they", "i", "me", "my", "us", "will",
   "can", "may", "must", "should", "could", "would", "role", "position",
   "team", "work", "working", "experience", "skills", "ability", "strong"]

/-- The frequency dict: `freq[w] = freq.get(w, 0) + 1` over an
insertion-ordered association list. -/
def bump : List (String × Nat) → String → List (String × Nat)
  | [], w => [(w, 1)]
  | (k, c) :: rest, w =>
    if k = w then (k, c + 1) :: rest else (k, c) :: bump rest w

/-- One step of a stable insertion sort by descending count: the new item
goes after every already-placed item whose count is at least as large,
matching Python's stable `sorted(..., key=count, reverse=True)`. -/
def insertByCount (p : String × Nat) : List (String × Nat) → List (String × Nat)
  | [] => [p]
  | q :: rest => if p.2 ≤ q.2 then q :: insertByCount p rest else p :: q :: rest

def sortByCountDesc (l : List (String × Nat)) : List (String × Nat) :=
  l.foldl (fun acc p => insertByCount p acc) []

/-- extract_keywords from resume_bot.py. -/
def extract_keywords (jobText : String) (skills : List String) : List String :=
  if jobText = "" then []
  else
    let jobl := toLowerS (normalize_text jobText)
    let matched := skills.filter (fun s => hasSubStr jobl (toLowerS s))
    let words := findTokens jobl.data
    let freq := words.foldl
      (fun m w => if w ∈ STOPWORDS ∨ w.length < 3 then m else bump m w) []
    let top := ((sortByCountDesc freq).take 8).map Prod.fst
    let kw1 := matched.foldl (fun acc s => if s ∈ acc then acc else acc ++ [s]) []
    top.foldl (fun acc w => if w ∈ acc then acc else acc ++ [w]) kw1

/-- Specification-side name for the matched-skills pass of
extract_keywords (step 1): skills whose lowercase form occurs in the
lowercased normalized job text, in skills-list order. -/
def matchedSkills (jobText : String) (skills : List String) : List String :=
  if jobText = "" then []
  else skills.filter (fun s => hasSubStr (toLowerS (normalize_text jobText)) (toLowerS s))

/-- Specification-side name for the top-8 frequency tokens of
extract_keywords (step 2). -/
def topTokens (jobText : String) : List String :=
  if jobText = "" then []
  else
    ((sortByCountDesc
        ((findTokens (toLowerS (normalize_text jobText)).data).foldl
          (fun m w => if w ∈ STOPWORDS ∨ w.length < 3 then m else bump m w) [])).take 8).map
      Prod.fst

/-- Exact-equality order-preserving deduplication (the `if s not in
keywords` loop of extract_keywords). -/
def dedupKeepFirst (l : List String) : List String :=
  l.foldl (fun acc s => if s ∈ acc then acc else acc ++ [s]) []

lemma dedupFold_nodup : ∀ (l acc : List String), acc.Nodup →
    (l.foldl (fun acc s => if s ∈ acc then acc else acc ++ [s]) acc).Nodup := by
  intro l
  induction l with
  | nil => intro acc h; exact h
  | cons x xs ih =>
    intro acc h
    simp only [List.foldl_cons]
    by_cases hx : x ∈ acc
    · rw [if_pos hx]; exact ih acc h
    · rw [if_neg hx]
      refine ih _ ?_
      refine List.Nodup.append h (List.nodup_singleton x) ?_
      intro a ha hax
      simp only [List.mem_singleton] at hax
      subst hax
      exact hx ha

lemma dedupFold_eq_append_filter : ∀ (l acc : List String), l.Nodup →
    l.foldl (fun acc s => if s ∈ acc then acc else acc ++ [s]) acc
      = acc ++ l.filter (fun s => s ∉ acc) := by
  intro l
  induction l with
  | nil => intro acc _; simp
  | cons x xs ih =>
    intro acc hnd
    have hx : x ∉ xs := (List.nodup_cons.mp hnd).1
    have hxs : xs.Nodup := (List.nodup_cons.mp hnd).2
    simp only [List.foldl_cons]
    by_cases hmem : x ∈ acc
    · rw [if_pos hmem, ih acc hxs]
      have hfc : (x :: xs).filter (fun s => s ∉ acc) = xs.filter (fun s => s ∉ acc) := by
        simp [List.filter_cons, hmem]
      rw [hfc]
    · rw [if_neg hmem, ih (acc ++ [x]) hxs]
      have hfc : xs.filter (fun s => s ∉ acc ++ [x]) = xs.filter (fun s => s ∉ acc) := by
        apply List.filter_congr
        intro y hy
        have hyx : y ≠ x := fun hh => hx (hh ▸ hy)
        simp [List.mem_append, hyx]
      rw [hfc]
      have hfx : (x :: xs).filter (fun s => s ∉ acc) =
          x :: xs.filter (fun s => s ∉ acc) := by
        simp [List.filter_cons, hmem]
      rw [hfx, List.append_assoc]
      rfl

lemma keys_bump : ∀ (m : List (String × Nat)) (w : String),
    (bump m w).map Prod.fst =
      if w ∈ m.map Prod.fst then m.map Prod.fst else m.map Prod.fst ++ [w] := by
  intro m
  induction m with
  | nil => intro w; simp [bump]
  | cons p rest ih =>
    intro w
    obtain ⟨k, c⟩ := p
    simp only [bump]
    by_cases hk : k = w
    · subst hk
      simp
    · rw [if_neg hk]
      simp only [List.map_cons]
      rw [ih w]
      by_cases hw : w ∈ rest.map Prod.fst
      · rw [if_pos hw, if_pos (List.mem_cons_of_mem _ hw)]
      · rw [if_neg hw, if_neg ?_]
        · rfl
        · intro hcon
          rcases List.mem_cons.mp hcon with h' | h'
          · exact hk h'.symm
          · exact hw h'

lemma freq_keys_nodup : ∀ (ws : List String) (m : List (String × Nat)),
    (m.map Prod.fst).Nodup →
    ((ws.foldl (fun m w => if w ∈ STOPWORDS ∨ w.length < 3 then m else bump m w)
        m).map Prod.fst).Nodup := by
  intro ws
  induction ws with
  | nil => intro m h; exact h
  | cons w rest ih =>
    intro m h
    simp only [List.foldl_cons]
    by_cases hw : w ∈ STOPWORDS ∨ w.length < 3
    · rw [if_pos hw]; exact ih m h
    · rw [if_neg hw]
      refine ih _ ?_
      rw [keys_bump]
      by_cases hm : w ∈ m.map Prod.fst
      · rw [if_pos hm]; exact h
      · rw [if_neg hm]
        refine List.Nodup.append h (List.nodup_singleton w) ?_
        intro a ha hax
        simp only [List.mem_singleton] at hax
        subst hax
        exact hm ha

lemma insertByCount_perm (p : String × Nat) :
    ∀ l, (insertByCount p l).Perm (p :: l) := by
  intro l
  induction l with
  | nil => simp [insertByCount]
  | cons q rest ih =>
    simp only [insertByCount]
    by_cases hq : p.2 ≤ q.2
    · rw [if_pos hq]
      exact (ih.cons q).trans (List.Perm.swap p q rest)
    · rw [if_neg hq]

lemma sortFold_perm : ∀ (l acc : List (String × Nat)),
    (l.foldl (fun a p => insertByCount p a) acc).Perm (acc ++ l) := by
  intro l
  induction l with
  | nil => intro acc; simp
  | cons x xs ih =>
    intro acc
    simp only [List.foldl_cons]
    refine (ih (insertByCount x acc)).trans ?_
    refine ((insertByCount_perm x acc).append_right xs).trans ?_
    exact List.perm_middle.symm

lemma topTokens_nodup (jobText : String) : (topTokens jobText).Nodup := by
  unfold topTokens
  by_cases h : jobText = ""
  · simp [h]
  · rw [if_neg h]
    have h1 : (((findTokens (toLowerS (normalize_text jobText)).data).foldl
        (fun m w => if w ∈ STOPWORDS ∨ w.length < 3 then m else bump m w)
        []).map Prod.fst).Nodup :=
      freq_keys_nodup _ [] (by simp)
    have h2 := sortFold_perm ((findTokens (toLowerS (normalize_text jobText)).data).foldl
        (fun m w => if w ∈ STOPWORDS ∨ w.length < 3 then m else bump m w) []) []
    simp only [List.nil_append] at h2
    have h3 := (h2.map Prod.fst).nodup_iff.mpr h1
    simp only [sortByCountDesc]
    rw [List.map_take]
    exact List.Nodup.sublist (List.take_sublist _ _) h3

/-- C4 (amended): extract_keywords deduplicates by EXACT string equality,
not case-insensitively: the output is the matched skills (exact
duplicates removed, in skills-list order) followed by the top-8 frequency
tokens not already exactly present; no two elements of the output are
exactly equal, but elements differing only in case can co-occur. -/
theorem extract_keywords_exact_dedup (jobText : String) (skills : List String) :
    (extract_keywords jobText skills).Nodup ∧
      extract_keywords jobText skills =
        dedupKeepFirst (matchedSkills jobText skills) ++
          (topTokens jobText).filter
            (fun w => w ∉ dedupKeepFirst (matchedSkills jobText skills)) := by
  by_cases h : jobText = ""
  · subst h
    refine ⟨by simp [extract_keywords], ?_⟩
    simp [extract_keywords, matchedSkills, topTokens, dedupKeepFirst]
  · have key : extract_keywords jobText skills =
        (topTokens jobText).foldl (fun acc w => if w ∈ acc then acc else acc ++ [w])
          (dedupKeepFirst (matchedSkills jobText skills)) := by
      simp only [extract_keywords, matchedSkills, topTokens, dedupKeepFirst, if_neg h]
    have hnodup1 : (dedupKeepFirst (matchedSkills jobText skills)).Nodup :=
      dedupFold_nodup _ [] (by simp)
    constructor
    · rw [key]; exact dedupFold_nodup _ _ hnodup1
    · rw [key]
      exact dedupFold_eq_append_filter (topTokens jobText) _ (topTokens_nodup jobText)

/-- C4 counterexample: with skills ["Python"] and job text
"Python Python", the output is ["Python", "python"]: two elements that
are equal up to case, so the output is not case-insensitively
deduplicated. -/
theorem extract_keywords_case_variants :
    extract_keywords "Python Python" ["Python"] = ["Python", "python"] ∧
      ("Python" : String) ≠ "python" ∧ toLowerS "Python" = toLowerS "python" := by
  decide

/-! Fit assessment (assess_job_fit, local heuristic path). -/

structure FitResult where
  recommendation : String
  confidence : Nat
  rationale : String
  matched_requirements : List String
  missing_requirements : List String
  gaps : List String
deriving DecidableEq, Repr

/-- The token list of the heuristic branch of assess_job_fit: word-like
tokens of the lowercased normalized job text, keeping those of length at
least 3 that are not stopwords. -/
def fitWords (jobText : String) : List String :=
  (findTokens (toLowerS (normalize_text jobText)).data).filter
    (fun w => 3 ≤ w.length ∧ w ∉ STOPWORDS)

/-- The top-18 tokens by descending frequency (stable ties) of the
heuristic branch. -/
def fitTopWords (jobText : String) : List String :=
  ((sortByCountDesc ((fitWords jobText).foldl bump [])).take 18).map Prod.fst

/-- assess_job_fit from resume_bot.py on its local-heuristic path (taken
when no OPENAI_API_KEY is present in the environment, so the OpenAI
branch is skipped; external calls are outside the model).  Python
computes `confidence = int(ratio * 100)` with `ratio =
len(matched)/max(1, len(top_words))`; the truncated value equals the
natural-number division below (exactly, whenever the float quotient is
exact, in particular in the all-matched case). -/
def assess_job_fit (jobText resumeText : String) : FitResult :=
  if strip jobText = "" then
    ⟨"MAYBE", 0, "Paste a job description to get an apply recommendation.",
      [], [], []⟩
  else
    let resumeNorm := toLowerS (normalize_text resumeText)
    let words := fitWords jobText
    if words.isEmpty then
      ⟨"MAYBE", 40,
        "Not enough detail in the job description to score fit accurately.",
        [], [], []⟩
    else
      let topWords := fitTopWords jobText
      let matched := topWords.filter (fun w => hasSubStr resumeNorm w)
      let confidence := (100 * matched.length) / (max 1 topWords.length)
      let recommendation :=
        if 65 ≤ confidence then "APPLY"
        else if 40 ≤ confidence then "MAYBE"
        else "NO"
      let missing := topWords.filter (fun w => ¬hasSubStr resumeNorm w = true)
      ⟨recommendation, confidence,
        "Match score based on keyword overlap: " ++ toString confidence ++ "%.",
        matched, missing, missing.take 3⟩

lemma bump_ne_nil (m : List (String × Nat)) (w : String) : bump m w ≠ [] := by
  cases m with
  | nil => simp [bump]
  | cons p rest =>
    obtain ⟨k, c⟩ := p
    simp only [bump]
    split <;> simp

lemma foldlBump_ne_nil : ∀ (l : List String) (m : List (String × Nat)),
    m ≠ [] → l.foldl bump m ≠ [] := by
  intro l
  induction l with
  | nil => intro m h; exact h
  | cons w rest ih =>
    intro m _
    simp only [List.foldl_cons]
    exact ih (bump m w) (bump_ne_nil m w)

lemma fitTopWords_ne_nil (jobText : String) (h : fitWords jobText ≠ []) :
    fitTopWords jobText ≠ [] := by
  have hfreq : (fitWords jobText).foldl bump [] ≠ [] := by
    cases hw : fitWords jobText with
    | nil => exact absurd hw h
    | cons w rest =>
      simp only [List.foldl_cons]
      exact foldlBump_ne_nil rest (bump [] w) (bump_ne_nil [] w)
  have hperm := sortFold_perm ((fitWords jobText).foldl bump []) []
  simp only [List.nil_append] at hperm
  have hlen : (sortByCountDesc ((fitWords jobText).foldl bump [])).length =
      ((fitWords jobText).foldl bump []).length := hperm.length_eq
  unfold fitTopWords
  intro hcon
  have htake : (sortByCountDesc ((fitWords jobText).foldl bump [])).take 18 = [] := by
    simpa using hcon
  have hzero : (sortByCountDesc ((fitWords jobText).foldl bump [])).length = 0 := by
    rcases List.take_eq_nil_iff.mp htake with h' | h'
    · cases h'
    · rw [h']; rfl
  rw [hlen] at hzero
  exact hfreq (List.length_eq_zero.mp hzero)

/-- C9: for every job text with non-blank content that yields at least
one token (length at least 3, not a stopword) and whose top-18 frequency
tokens all occur as substrings of the lowercased normalized resume text,
the local heuristic path of assess_job_fit returns recommendation
"APPLY" with confidence at least 65 (indeed exactly 100 here). -/
theorem assess_job_fit_all_matched_apply (jobText resumeText : String)
    (h0 : strip jobText ≠ "")
    (h1 : fitWords jobText ≠ [])
    (h2 : ∀ w ∈ fitTopWords jobText,
      hasSubStr (toLowerS (normalize_text resumeText)) w = true) :
    (assess_job_fit jobText resumeText).recommendation = "APPLY" ∧
      65 ≤ (assess_job_fit jobText resumeText).confidence := by
  have hwordsne : (fitWords jobText).isEmpty = false := by
    cases hfw : fitWords jobText with
    | nil => exact absurd hfw h1
    | cons a b => rfl
  have hfilter : (fitTopWords jobText).filter
      (fun w => hasSubStr (toLowerS (normalize_text resumeText)) w) =
      fitTopWords jobText :=
    List.filter_eq_self.mpr (fun a ha => h2 a ha)
  have hk : 1 ≤ (fitTopWords jobText).length := by
    have := fitTopWords_ne_nil jobText h1
    cases hft : fitTopWords jobText with
    | nil => exact absurd hft this
    | cons a b => simp
  have hconf : 100 * (fitTopWords jobText).length / max 1 (fitTopWords jobText).length
      = 100 := by
    rw [max_eq_right hk]
    exact Nat.mul_div_cancel _ (by omega)
  unfold assess_job_fit
  rw [if_neg h0]
  simp only [hwordsne, Bool.false_eq_true, if_false, hfilter, hconf]
  simp

/-- C9 witness. -/
theorem assess_job_fit_all_matched_apply_witness :
    (assess_job_fit "kubernetes kubernetes"
        "We use Kubernetes in production").recommendation = "APPLY" ∧
      65 ≤ (assess_job_fit "kubernetes kubernetes"
        "We use Kubernetes in production").confidence :=
  assess_job_fit_all_matched_apply "kubernetes kubernetes"
    "We use Kubernetes in production" (by decide) (by decide) (by decide)

/-! Skill filtering for a job (filter_skills_for_job). -/

/-- The scoring pass of filter_skills_for_job over `enumerate(skills)`:
each skill gets 5 points when its non-empty lowercased normalized form is
a substring of the normalized job text, plus one point per token of the
skill found in the job word set.  Returns (score, index, skill)
triples. -/
def scoreSkills (jobNorm : String) (jobWords : List String) :
    Nat → List String → List (Nat × Nat × String)
  | _, [] => []
  | idx, skill :: rest =>
    let sNorm := toLowerS (normalize_text skill)
    let score :=
      (if sNorm ≠ "" ∧ hasSubStr jobNorm sNorm = true then 5 else 0) +
        (findTokens sNorm.data).countP (fun tok => tok ∈ jobWords)
    (score, idx, skill) :: scoreSkills jobNorm jobWords (idx + 1) rest

/-- Insertion step for `matches.sort(key=lambda t: (-t[0], t[1]))`: an
already-placed triple stays in front iff it is strictly smaller in the
(-score, index) order; all keys are distinct because indices are, so this
reproduces Python's sort exactly. -/
def insertScored (p : Nat × Nat × String) :
    List (Nat × Nat × String) → List (Nat × Nat × String)
  | [] => [p]
  | q :: rest =>
    if p.1 < q.1 ∨ (q.1 = p.1 ∧ q.2.1 < p.2.1) then q :: insertScored p rest
    else p :: q :: rest

def sortScored (l : List (Nat × Nat × String)) : List (Nat × Nat × String) :=
  l.foldl (fun acc p => insertScored p acc) []

/-- The first selection loop of filter_skills_for_job (over sorted
matches): append unseen skills (case-insensitive key), breaking as soon
as max_skills are selected.  Returns (selected, selected_keys). -/
def selLoop1 (maxSkills : Nat) :
    List (Nat × Nat × String) → List String → List String →
      List String × List String
  | [], selected, keys => (selected, keys)
  | (_, _, skill) :: rest, selected, keys =>
    let key := toLowerS skill
    let next :=
      if key ∈ keys then (selected, keys)
      else (selected ++ [skill], keys ++ [key])
    if maxSkills ≤ next.1.length then next
    else selLoop1 maxSkills rest next.1 next.2

/-- The padding loop of filter_skills_for_job: walk the original skills,
skip already-selected keys, stop at max_skills, and stop early at
min_skills when matches existed. -/
def selLoop2 (maxSkills minSkills : Nat) (hasMatches : Bool) :
    List String → List String → List String → List String × List String
  | [], selected, keys => (selected, keys)
  | skill :: rest, selected, keys =>
    let key := toLowerS skill
    if key ∈ keys then selLoop2 maxSkills minSkills hasMatches rest selected keys
    else if maxSkills ≤ selected.length then (selected, keys)
    else
      let sel2 := selected ++ [skill]
      if minSkills ≤ sel2.length ∧ hasMatches = true then (sel2, keys ++ [key])
      else selLoop2 maxSkills minSkills hasMatches rest sel2 (keys ++ [key])

/-- filter_skills_for_job from resume_bot.py (max_skills defaults to 16
and min_skills to 10 at the Python call sites). -/
def filter_skills_for_job (skills : List String) (jobText : String)
    (maxSkills minSkills : Nat) : List String :=
  if skills = [] then skills
  else if jobText = "" then skills.take maxSkills
  else
    let jobNorm := toLowerS (normalize_text jobText)
    let jobWords := (findTokens jobNorm.data).filter
      (fun w => 3 ≤ w.length ∧ w ∉ STOPWORDS)
    let scored := scoreSkills jobNorm jobWords 0 skills
    let matchesL := scored.filter (fun t => 0 < t.1)
    let afterM :=
      if matchesL ≠ [] then selLoop1 maxSkills (sortScored matchesL) [] []
      else ([], [])
    let afterP := selLoop2 maxSkills minSkills (!matchesL.isEmpty) skills
      afterM.1 afterM.2
    afterP.1.take maxSkills

lemma scoreSkills_mem : ∀ (skills : List String) (jobNorm : String)
    (jobWords : List String) (idx : Nat) (p : Nat × Nat × String),
    p ∈ scoreSkills jobNorm jobWords idx skills → p.2.2 ∈ skills := by
  intro skills
  induction skills with
  | nil => intro _ _ _ p h; cases h
  | cons s rest ih =>
    intro jobNorm jobWords idx p h
    simp only [scoreSkills] at h
    rcases List.mem_cons.mp h with h' | h'
    · subst h'; exact List.mem_cons_self _ _
    · exact List.mem_cons_of_mem _ (ih jobNorm jobWords (idx + 1) p h')

lemma insertScored_mem (p : Nat × Nat × String) :
    ∀ (l : List (Nat × Nat × String)) (x : Nat × Nat × String),
    x ∈ insertScored p l → x = p ∨ x ∈ l := by
  intro l
  induction l with
  | nil => intro x h; simp [insertScored] at h; exact Or.inl h
  | cons q rest ih =>
    intro x h
    simp only [insertScored] at h
    by_cases hq : p.1 < q.1 ∨ (q.1 = p.1 ∧ q.2.1 < p.2.1)
    · rw [if_pos hq] at h
      rcases List.mem_cons.mp h with h' | h'
      · exact Or.inr (h' ▸ List.mem_cons_self _ _)
      · rcases ih x h' with h'' | h''
        · exact Or.inl h''
        · exact Or.inr (List.mem_cons_of_mem _ h'')
    · rw [if_neg hq] at h
      rcases List.mem_cons.mp h with h' | h'
      · exact Or.inl h'
      · exact Or.inr h'

lemma sortScoredFold_mem : ∀ (l acc : List (Nat × Nat × String))
    (x : Nat × Nat × String),
    x ∈ l.foldl (fun a p => insertScored p a) acc → x ∈ acc ∨ x ∈ l := by
  intro l
  induction l with
  | nil => intro acc x h; exact Or.inl h
  | cons p rest ih =>
    intro acc x h
    simp only [List.foldl_cons] at h
    rcases ih (insertScored p acc) x h with h' | h'
    · rcases insertScored_mem p acc x h' with h'' | h''
      · exact Or.inr (h'' ▸ List.mem_cons_self _ _)
      · exact Or.inl h''
    · exact Or.inr (List.mem_cons_of_mem _ h')

lemma selLoop1_mem : ∀ (ms : List (Nat × Nat × String)) (maxSkills : Nat)
    (selected keys : List String) (x : String),
    x ∈ (selLoop1 maxSkills ms selected keys).1 →
      x ∈ selected ∨ ∃ t ∈ ms, x = t.2.2 := by
  intro ms
  induction ms with
  | nil => intro _ sel keys x h; exact Or.inl h
  | cons t rest ih =>
    intro maxSkills selected keys x h
    obtain ⟨score, idx, skill⟩ := t
    simp only [selLoop1] at h
    by_cases hkey : toLowerS skill ∈ keys
    · rw [if_pos hkey] at h
      by_cases hbreak : maxSkills ≤ selected.length
      · rw [if_pos hbreak] at h
        exact Or.inl h
      · rw [if_neg hbreak] at h
        rcases ih maxSkills selected keys x h with h' | ⟨t, ht, hx⟩
        · exact Or.inl h'
        · exact Or.inr ⟨t, List.mem_cons_of_mem _ ht, hx⟩
    · rw [if_neg hkey] at h
      by_cases hbreak : maxSkills ≤ (selected ++ [skill]).length
      · rw [if_pos hbreak] at h
        rcases List.mem_append.mp h with h' | h'
        · exact Or.inl h'
        · simp only [List.mem_singleton] at h'
          exact Or.inr ⟨(score, idx, skill), List.mem_cons_self _ _, h'⟩
      · rw [if_neg hbreak] at h
        rcases ih maxSkills (selected ++ [skill]) (keys ++ [toLowerS skill]) x h with
          h' | ⟨t, ht, hx⟩
        · rcases List.mem_append.mp h' with h'' | h''
          · exact Or.inl h''
          · simp only [List.mem_singleton] at h''
            exact Or.inr ⟨(score, idx, skill), List.mem_cons_self _ _, h''⟩
        · exact Or.inr ⟨t, List.mem_cons_of_mem _ ht, hx⟩

lemma selLoop2_mem : ∀ (sks : List String) (maxSkills minSkills : Nat)
    (hasMatches : Bool) (selected keys : List String) (x : String),
    x ∈ (selLoop2 maxSkills minSkills hasMatches sks selected keys).1 →
      x ∈ selected ∨ x ∈ sks := by
  intro sks
  induction sks with
  | nil => intro _ _ _ sel keys x h; exact Or.inl h
  | cons skill rest ih =>
    intro maxSkills minSkills hasMatches selected keys x h
    simp only [selLoop2] at h
    by_cases hkey : toLowerS skill ∈ keys
    · rw [if_pos hkey] at h
      rcases ih maxSkills minSkills hasMatches selected keys x h with h' | h'
      · exact Or.inl h'
      · exact Or.inr (List.mem_cons_of_mem _ h')
    · rw [if_neg hkey] at h
      by_cases hbreak : maxSkills ≤ selected.length
      · rw [if_pos hbreak] at h
        exact Or.inl h
      · rw [if_neg hbreak] at h
        by_cases hstop : minSkills ≤ (selected ++ [skill]).length ∧ hasMatches = true
        · rw [if_pos hstop] at h
          rcases List.mem_append.mp h with h' | h'
          · exact Or.inl h'
          · simp only [List.mem_singleton] at h'
            exact Or.inr (h' ▸ List.mem_cons_self _ _)
        · rw [if_neg hstop] at h
          rcases ih maxSkills minSkills hasMatches (selected ++ [skill])
              (keys ++ [toLowerS skill]) x h with h' | h'
          · rcases List.mem_append.mp h' with h'' | h''
            · exact Or.inl h''
            · simp only [List.mem_singleton] at h''
              exact Or.inr (h'' ▸ List.mem_cons_self _ _)
          · exact Or.inr (List.mem_cons_of_mem _ h')

/-- C10: filter_skills_for_job returns at most max_skills skills, every
returned element is drawn from the input skills list (no skill is
invented), and with an empty job text and a non-empty skills list it
returns exactly the first max_skills input skills in order. -/
theorem filter_skills_for_job_bounds (skills : List String) (jobText : String)
    (maxSkills minSkills : Nat) :
    (filter_skills_for_job skills jobText maxSkills minSkills).length ≤ maxSkills ∧
      (∀ x ∈ filter_skills_for_job skills jobText maxSkills minSkills, x ∈ skills) ∧
      (jobText = "" → skills ≠ [] →
        filter_skills_for_job skills jobText maxSkills minSkills =
          skills.take maxSkills) := by
  by_cases hs : skills = []
  · subst hs
    refine ⟨by simp [filter_skills_for_job], ?_, ?_⟩
    · intro x hx
      simp [filter_skills_for_job] at hx
    · intro _ hne
      exact absurd rfl hne
  · by_cases hj : jobText = ""
    · subst hj
      have hval : filter_skills_for_job skills "" maxSkills minSkills =
          skills.take maxSkills := by
        simp [filter_skills_for_job, hs]
      refine ⟨?_, ?_, fun _ _ => hval⟩
      · rw [hval]; exact List.length_take_le _ _
      · intro x hx
        rw [hval] at hx
        exact List.mem_of_mem_take hx
    · have hval : filter_skills_for_job skills jobText maxSkills minSkills =
          (selLoop2 maxSkills minSkills
            (!((scoreSkills (toLowerS (normalize_text jobText))
              ((findTokens (toLowerS (normalize_text jobText)).data).filter
                (fun w => 3 ≤ w.length ∧ w ∉ STOPWORDS)) 0 skills).filter
                (fun t => 0 < t.1)).isEmpty)
            skills
            (if ((scoreSkills (toLowerS (normalize_text jobText))
              ((findTokens (toLowerS (normalize_text jobText)).data).filter
                (fun w => 3 ≤ w.length ∧ w ∉ STOPWORDS)) 0 skills).filter
                (fun t => 0 < t.1)) ≠ [] then
              (selLoop1 maxSkills (sortScored
                ((scoreSkills (toLowerS (normalize_text jobText))
                  ((findTokens (toLowerS (normalize_text jobText)).data).filter
                    (fun w => 3 ≤ w.length ∧ w ∉ STOPWORDS)) 0 skills).filter
                    (fun t => 0 < t.1))) [] [])
            else ([], [])).1
            (if ((scoreSkills (toLowerS (normalize_text jobText))
              ((findTokens (toLowerS (normalize_text jobText)).data).filter
                (fun w => 3 ≤ w.length ∧ w ∉ STOPWORDS)) 0 skills).filter
                (fun t => 0 < t.1)) ≠ [] then
              (selLoop1 maxSkills (sortScored
                ((scoreSkills (toLowerS (normalize_text jobText))
                  ((findTokens (toLowerS (normalize_text jobText)).data).filter
                    (fun w => 3 ≤ w.length ∧ w ∉ STOPWORDS)) 0 skills).filter
                    (fun t => 0 < t.1))) [] [])
            else ([], [])).2).1.take maxSkills := by
        simp only [filter_skills_for_job, if_neg hs, if_neg hj]
      refine ⟨?_, ?_, fun hcon _ => absurd hcon hj⟩
      · rw [hval]; exact List.length_take_le _ _
      · intro x hx
        rw [hval] at hx
        have hx2 := List.mem_of_mem_take hx
        have hmem := selLoop2_mem skills maxSkills minSkills _ _ _ x hx2
        rcases hmem with h' | h'
        · by_cases hm : ((scoreSkills (toLowerS (normalize_text jobText))
              ((findTokens (toLowerS (normalize_text jobText)).data).filter
                (fun w => 3 ≤ w.length ∧ w ∉ STOPWORDS)) 0 skills).filter
                (fun t => 0 < t.1)) ≠ []
          · rw [if_pos hm] at h'
            rcases selLoop1_mem _ maxSkills [] [] x h' with h'' | ⟨t, ht, hx3⟩
            · cases h''
            · have ht2 := sortScoredFold_mem _ [] t ht
              rcases ht2 with h3 | h3
              · cases h3
              · have := List.mem_of_mem_filter h3
                subst hx3
                exact scoreSkills_mem skills _ _ 0 t this
          · rw [if_neg hm] at h'
            cases h'
        · exact h'

/-- C10 witness. -/
theorem filter_skills_for_job_bounds_witness :
    (filter_skills_for_job ["Python", "Go"] "" 16 10).length ≤ 16 ∧
      (∀ x ∈ filter_skills_for_job ["Python", "Go"] "" 16 10,
        x ∈ (["Python", "Go"] : List String)) ∧
      filter_skills_for_job ["Python", "Go"] "" 16 10 = ["Python", "Go"] := by
  obtain ⟨h1, h2, h3⟩ := filter_skills_for_job_bounds ["Python", "Go"] "" 16 10
  exact ⟨h1, h2, (h3 rfl (by decide)).trans (by decide)⟩

/-! Round-trip apparatus for split_sections: building a well-formed
resume text from a list of (title, body-lines) sections and parsing it
back. -/

/-- The line sequence of a well-formed resume: each section contributes
its title line, a dashed separator line, then its body lines. -/
def buildLines : List (String × List String) → List String
  | [] => []
  | (t, body) :: rest => t :: "---" :: (body ++ buildLines rest)

/-- Join lines with newline characters (inverse of splitlines for
newline-free lines whose last line is non-empty). -/
def joinLinesL : List String → List Char
  | [] => []
  | [l] => l.data
  | l :: l2 :: rest => l.data ++ '\n' :: joinLinesL (l2 :: rest)

/-- The resume text of a section list. -/
def buildResume (secs : List (String × List String)) : String :=
  ⟨joinLinesL (buildLines secs)⟩

lemma list_map_fixed {α : Type} (f : α → α) :
    ∀ l : List α, (∀ x ∈ l, f x = x) → l.map f = l := by
  intro l
  induction l with
  | nil => intro _; rfl
  | cons a r ih =>
    intro h
    simp only [List.map_cons]
    rw [h a (List.mem_cons_self _ _), ih (fun x hx => h x (List.mem_cons_of_mem _ hx))]

lemma splitLinesL_single : ∀ l : List Char, '\n' ∉ l → l ≠ [] →
    splitLinesL l = [l] := by
  intro l
  induction l with
  | nil => intro _ h; exact absurd rfl h
  | cons c t ih =>
    intro hn _
    have hc : ¬c = '\n' := fun h => hn (h ▸ List.mem_cons_self _ _)
    simp only [splitLinesL, hc, if_false]
    cases ht : t with
    | nil => rfl
    | cons d r =>
      have := ih (fun h => hn (List.mem_cons_of_mem _ h)) (by simp [ht])
      rw [ht] at this
      rw [this]

lemma splitLinesL_append : ∀ (l cs : List Char), '\n' ∉ l →
    splitLinesL (l ++ '\n' :: cs) = l :: splitLinesL cs := by
  intro l
  induction l with
  | nil => intro cs _; simp [splitLinesL]
  | cons c t ih =>
    intro cs hn
    have hc : ¬c = '\n' := fun h => hn (h ▸ List.mem_cons_self _ _)
    simp only [List.cons_append, splitLinesL, hc, if_false, List.append_eq]
    rw [ih cs (fun h => hn (List.mem_cons_of_mem _ h))]

lemma splitLinesL_join : ∀ ls : List String, (∀ l ∈ ls, '\n' ∉ l.data) →
    ls.getLast? ≠ some "" → splitLinesL (joinLinesL ls) = ls.map String.data := by
  intro ls
  induction ls with
  | nil => intro _ _; rfl
  | cons l rest ih =>
    intro hn hlast
    cases hr : rest with
    | nil =>
      subst hr
      have hl : l ≠ "" := by
        intro h
        exact hlast (by simp [h])
      have hld : l.data ≠ [] := by
        intro h
        apply hl
        show l = ""
        have heta : l = ⟨l.data⟩ := rfl
        rw [heta, h]
      simp only [joinLinesL, List.map_cons, List.map_nil]
      exact splitLinesL_single l.data (hn l (List.mem_cons_self _ _)) hld
    | cons l2 rest2 =>
      subst hr
      simp only [joinLinesL, List.map_cons]
      rw [splitLinesL_append l.data _ (hn l (List.mem_cons_self _ _))]
      have hlast2 : (l2 :: rest2).getLast? ≠ some "" := by
        rwa [List.getLast?_cons_cons] at hlast
      rw [ih (fun x hx => hn x (List.mem_cons_of_mem _ hx)) hlast2]
      rfl

lemma hasKey_append (d1 d2 : List (String × List String)) (k : String) :
    hasKey (d1 ++ d2) k = (hasKey d1 k || hasKey d2 k) := by
  simp [hasKey, List.any_append]

lemma dictSetdefault_fresh {d : List (String × List String)} {t : String}
    (h : hasKey d t = false) : dictSetdefault d t = d ++ [(t, [])] := by
  simp [dictSetdefault, h]

lemma dictAppend_fresh : ∀ (d : List (String × List String)) (t : String)
    (acc : List String) (v : String), hasKey d t = false →
    dictAppend (d ++ [(t, acc)]) t v = d ++ [(t, acc ++ [v])] := by
  intro d
  induction d with
  | nil => intro t acc v _; simp [dictAppend]
  | cons p rest ih =>
    intro t acc v h
    obtain ⟨k, vs⟩ := p
    simp only [hasKey, List.any_cons, Bool.or_eq_false_iff] at h
    have hk : ¬k = t := by
      intro hk
      rw [hk] at h
      simpa using h.1
    simp only [List.cons_append, dictAppend, hk, if_false, List.append_eq]
    rw [ih t acc v h.2]

lemma lookaheadDash_append_false : ∀ (body more : List String),
    (∀ b ∈ body, strip b = b ∧ DASH_LINE b = false) →
    (match more with
      | [] => True
      | m :: _ => strip m = m ∧ m ≠ "" ∧ DASH_LINE m = false) →
    lookaheadDash (body ++ more) = false := by
  intro body
  induction body with
  | nil =>
    intro more _ hm
    cases more with
    | nil => rfl
    | cons m rest =>
      obtain ⟨h1, h2, h3⟩ := hm
      have hcond : decide (strip m = "") = false := by
        rw [h1]
        simpa using h2
      simp only [List.nil_append, lookaheadDash, List.dropWhile_cons, hcond,
        Bool.false_eq_true, if_false]
      rw [h1, h3]
  | cons b body' ih =>
    intro more h hm
    obtain ⟨hb1, hb2⟩ := h b (List.mem_cons_self _ _)
    by_cases hbe : b = ""
    · have hcond : decide (strip b = "") = true := by
        rw [hb1, hbe]
        simp
      have hstep : lookaheadDash ((b :: body') ++ more) =
          lookaheadDash (body' ++ more) := by
        simp only [List.cons_append, lookaheadDash, List.dropWhile_cons, hcond,
          if_true]
      rw [hstep]
      exact ih more (fun x hx => h x (List.mem_cons_of_mem _ hx)) hm
    · have hcond : decide (strip b = "") = false := by
        rw [hb1]
        simpa using hbe
      simp only [List.cons_append, lookaheadDash, List.dropWhile_cons, hcond,
        Bool.false_eq_true, if_false]
      rw [hb1, hb2]

lemma splitGo_body : ∀ (body : List String) (f2 : Nat) (more : List String)
    (t : String) (d0 : List (String × List String)) (acc hb : List String),
    (∀ b ∈ body, strip b = b ∧ DASH_LINE b = false) →
    (match more with
      | [] => True
      | m :: _ => strip m = m ∧ m ≠ "" ∧ DASH_LINE m = false) →
    hasKey d0 t = false →
    splitGoF (body.length + f2) (body ++ more) (some t) (d0 ++ [(t, acc)]) hb =
      splitGoF f2 more (some t) (d0 ++ [(t, acc ++ body)]) hb := by
  intro body
  induction body with
  | nil =>
    intro f2 more t d0 acc hb _ _ _
    simp
  | cons b body' ih =>
    intro f2 more t d0 acc hb hbody hmore hfresh
    obtain ⟨hb1, hb2⟩ := hbody b (List.mem_cons_self _ _)
    have hlen : (b :: body').length + f2 = (body'.length + f2) + 1 := by
      simp only [List.length_cons]
      omega
    rw [hlen]
    have hbodyrest : ∀ x ∈ body', strip x = x ∧ DASH_LINE x = false :=
      fun x hx => hbody x (List.mem_cons_of_mem _ hx)
    by_cases hbe : b = ""
    · have hgo : splitGoF ((body'.length + f2) + 1) ((b :: body') ++ more) (some t)
          (d0 ++ [(t, acc)]) hb =
          splitGoF (body'.length + f2) (body' ++ more) (some t)
            (dictAppend (d0 ++ [(t, acc)]) t "") hb := by
        simp only [List.cons_append, splitGoF]
        rw [hb1, hbe]
        simp
      rw [hgo, dictAppend_fresh d0 t acc "" hfresh,
        ih f2 more t d0 (acc ++ [""]) hb hbodyrest hmore hfresh, hbe,
        List.append_cons acc "" body']
    · have hla : lookaheadDash (body' ++ more) = false :=
        lookaheadDash_append_false body' more hbodyrest hmore
      have hgo : splitGoF ((body'.length + f2) + 1) ((b :: body') ++ more) (some t)
          (d0 ++ [(t, acc)]) hb =
          splitGoF (body'.length + f2) (body' ++ more) (some t)
            (dictAppend (d0 ++ [(t, acc)]) t b) hb := by
        simp only [List.cons_append, splitGoF]
        rw [hb1]
        simp [hbe, hb2, hla]
      rw [hgo, dictAppend_fresh d0 t acc b hfresh,
        ih f2 more t d0 (acc ++ [b]) hb hbodyrest hmore hfresh,
        List.append_cons acc b body']

lemma splitGo_build : ∀ (secs : List (String × List String)) (f : Nat)
    (cur : Option String) (d : List (String × List String)) (hb : List String),
    (buildLines secs).length ≤ f →
    (∀ p ∈ secs, strip p.1 = p.1 ∧ p.1 ≠ "" ∧ DASH_LINE p.1 = false ∧
      isHeaderCandidate p.1 = true) →
    (∀ p ∈ secs, ∀ b ∈ p.2, strip b = b ∧ DASH_LINE b = false) →
    (∀ p ∈ secs, hasKey d p.1 = false) →
    (secs.map Prod.fst).Nodup →
    splitGoF f (buildLines secs) cur d hb = (hb, d ++ secs) := by
  intro secs
  induction secs with
  | nil =>
    intro f cur d hb _ _ _ _ _
    cases f <;> simp [splitGoF, buildLines]
  | cons p secs' ih =>
    intro f cur d hb hf htitles hbodies hfresh hnodup
    obtain ⟨t, body⟩ := p
    obtain ⟨ht1, ht2, ht3, ht4⟩ := htitles (t, body) (List.mem_cons_self _ _)
    have hlen : (buildLines ((t, body) :: secs')).length =
        2 + body.length + (buildLines secs').length := by
      simp [buildLines]
      omega
    rw [hlen] at hf
    cases f with
    | zero => omega
    | succ f' =>
      have hf' : 1 + body.length + (buildLines secs').length ≤ f' := by omega
      have hstep1 : splitGoF (f' + 1) (buildLines ((t, body) :: secs')) cur d hb =
          splitGoF f' (body ++ buildLines secs') (some t) (d ++ [(t, [])]) hb := by
        show splitGoF (f' + 1) (t :: "---" :: (body ++ buildLines secs')) cur d hb = _
        have hnb : decide (strip ("---" : String) = "") = false := by decide
        have hla : lookaheadDash ("---" :: (body ++ buildLines secs')) = true := by
          simp only [lookaheadDash, List.dropWhile_cons, hnb, Bool.false_eq_true,
            if_false]
          decide
        have htail : (("---" :: (body ++ buildLines secs')).dropWhile
            (fun x => strip x = "")).tail = body ++ buildLines secs' := by
          simp only [List.dropWhile_cons, hnb, Bool.false_eq_true, if_false,
            List.tail_cons]
        simp only [splitGoF]
        rw [ht1]
        simp only [ht2, ht3, ht4, hla, Bool.and_self, if_true, Bool.false_eq_true,
          if_false, htail]
        rw [dictSetdefault_fresh (hfresh (t, body) (List.mem_cons_self _ _))]
      rw [hstep1]
      have hble : body.length ≤ f' := by omega
      have hmore : (match buildLines secs' with
          | [] => True
          | m :: _ => strip m = m ∧ m ≠ "" ∧ DASH_LINE m = false) := by
        cases secs' with
        | nil => simp [buildLines]
        | cons q qs =>
          obtain ⟨t2, b2⟩ := q
          have hmem : (t2, b2) ∈ (t, body) :: (t2, b2) :: qs :=
            List.mem_cons_of_mem _ (List.mem_cons_self _ _)
          obtain ⟨h1, h2, h3, _⟩ := htitles (t2, b2) hmem
          simpa [buildLines] using ⟨h1, h2, h3⟩
      have hbodyok : ∀ b ∈ body, strip b = b ∧ DASH_LINE b = false :=
        fun b hbm => hbodies (t, body) (List.mem_cons_self _ _) b hbm
      have hfreshT : hasKey d t = false := hfresh (t, body) (List.mem_cons_self _ _)
      have hsplit := splitGo_body body (f' - body.length) (buildLines secs') t d []
        hb hbodyok hmore hfreshT
      rw [Nat.add_sub_cancel' hble] at hsplit
      rw [hsplit]
      simp only [List.nil_append]
      have htnotin : t ∉ secs'.map Prod.fst := by
        simp only [List.map_cons, List.nodup_cons] at hnodup
        exact hnodup.1
      have hfresh2 : ∀ p ∈ secs', hasKey (d ++ [(t, body)]) p.1 = false := by
        intro p hp
        rw [hasKey_append]
        have h1 : hasKey d p.1 = false := hfresh p (List.mem_cons_of_mem _ hp)
        have h2 : hasKey [(t, body)] p.1 = false := by
          simp only [hasKey, List.any_cons, List.any_nil, Bool.or_false]
          have : t ≠ p.1 := by
            intro hcon
            exact htnotin (hcon ▸ List.mem_map_of_mem Prod.fst hp)
          simpa using this
        rw [h1, h2]
        rfl
      have hnodup2 : (secs'.map Prod.fst).Nodup := by
        simp only [List.map_cons, List.nodup_cons] at hnodup
        exact hnodup.2
      rw [ih (f' - body.length) (some t) (d ++ [(t, body)]) hb (by omega)
        (fun p hp => htitles p (List.mem_cons_of_mem _ hp))
        (fun p hp => hbodies p (List.mem_cons_of_mem _ hp)) hfresh2 hnodup2]
      simp

lemma buildLines_mem : ∀ (secs : List (String × List String)) (l : String),
    l ∈ buildLines secs →
    (∃ p ∈ secs, l = p.1) ∨ l = "---" ∨ ∃ p ∈ secs, l ∈ p.2 := by
  intro secs
  induction secs with
  | nil => intro l h; cases h
  | cons p rest ih =>
    intro l h
    obtain ⟨t, body⟩ := p
    simp only [buildLines] at h
    rcases List.mem_cons.mp h with h1 | h1
    · exact Or.inl ⟨(t, body), List.mem_cons_self _ _, h1⟩
    · rcases List.mem_cons.mp h1 with h2 | h2
      · exact Or.inr (Or.inl h2)
      · rcases List.mem_append.mp h2 with h3 | h3
        · exact Or.inr (Or.inr ⟨(t, body), List.mem_cons_self _ _, h3⟩)
        · rcases ih l h3 with ⟨q, hq, he⟩ | he | ⟨q, hq, he⟩
          · exact Or.inl ⟨q, List.mem_cons_of_mem _ hq, he⟩
          · exact Or.inr (Or.inl he)
          · exact Or.inr (Or.inr ⟨q, List.mem_cons_of_mem _ hq, he⟩)

/-- C6 (amended): splitting a résumé built from N well-formed header
blocks — a title line (non-blank, strip/normalize-invariant, no URL or
at-sign, not itself a dashed line), a dashed separator, then the body
lines — with pairwise-distinct titles produces exactly those N section
keys in first-seen order, where each key's body list contains exactly the
intervening non-dashed lines between that header and the next, in
original order, with blank lines kept as empty strings (they are NOT
dropped). -/
theorem split_sections_round_trip (secs : List (String × List String))
    (htitles : ∀ p ∈ secs, strip p.1 = p.1 ∧ p.1 ≠ "" ∧ DASH_LINE p.1 = false ∧
      isHeaderCandidate p.1 = true ∧ '\n' ∉ p.1.data ∧
      normalize_text (rstrip p.1) = p.1)
    (hbodies : ∀ p ∈ secs, ∀ b ∈ p.2, strip b = b ∧ DASH_LINE b = false ∧
      '\n' ∉ b.data ∧ normalize_text (rstrip b) = b)
    (hnodup : (secs.map Prod.fst).Nodup)
    (hlast : (buildLines secs).getLast? ≠ some "") :
    split_sections (buildResume secs) = ([], secs) := by
  have hnol : ∀ l ∈ buildLines secs, '\n' ∉ l.data := by
    intro l hl
    rcases buildLines_mem secs l hl with ⟨p, hp, he⟩ | he | ⟨p, hp, he⟩
    · exact he ▸ (htitles p hp).2.2.2.2.1
    · subst he; decide
    · exact (hbodies p hp l he).2.2.1
  have hsplit : splitLines (buildResume secs) = buildLines secs := by
    unfold splitLines buildResume
    rw [show (⟨joinLinesL (buildLines secs)⟩ : String).data
      = joinLinesL (buildLines secs) from rfl]
    rw [splitLinesL_join (buildLines secs) hnol hlast, List.map_map]
    exact list_map_fixed _ (buildLines secs) (fun x _ => rfl)
  have hmap : (splitLines (buildResume secs)).map (fun l => normalize_text (rstrip l))
      = buildLines secs := by
    rw [hsplit]
    apply list_map_fixed
    intro l hl
    rcases buildLines_mem secs l hl with ⟨p, hp, he⟩ | he | ⟨p, hp, he⟩
    · exact he ▸ (htitles p hp).2.2.2.2.2
    · subst he; decide
    · exact (hbodies p hp l he).2.2.2
  unfold split_sections
  rw [hmap]
  have := splitGo_build secs (buildLines secs).length none [] [] (le_refl _)
    (fun p hp => ⟨(htitles p hp).1, (htitles p hp).2.1, (htitles p hp).2.2.1,
      (htitles p hp).2.2.2.1⟩)
    (fun p hp b hb => ⟨(hbodies p hp b hb).1, (hbodies p hp b hb).2.1⟩)
    (fun p _ => rfl) hnodup
  simpa using this

/-- C6 witness: a concrete two-section resume (with a blank line inside
the first body) splits back to exactly the two sections. -/
theorem split_sections_round_trip_witness :
    split_sections (buildResume [("Education", ["BS Computer Science", "", "MS Data"]),
        ("Skills", ["Python, SQL"])]) =
      ([], [("Education", ["BS Computer Science", "", "MS Data"]),
        ("Skills", ["Python, SQL"])]) :=
  split_sections_round_trip
    [("Education", ["BS Computer Science", "", "MS Data"]), ("Skills", ["Python, SQL"])]
    (by decide) (by decide) (by decide) (by decide)

/-- C6 counterexample: the text "S\n---\na\n\nb\nS\n---\nc" contains two
well-formed headers, but split_sections returns a single key "S" whose
body keeps the blank line as an empty string and concatenates content
from both blocks: duplicate titles merge and blank lines are not
dropped, contradicting the claim of exactly N keys and blank-free
bodies. -/
theorem split_sections_merges_duplicate_titles :
    split_sections "S\n---\na\n\nb\nS\n---\nc" =
      ([], [("S", ["a", "", "b", "c"])]) := by
  decide

/-! Tailored-text parser (build_sections_from_tailored_text).
The lines fed to the parser come from splitlines, so they contain no
newline; clean_md is modelled on such single-line inputs. -/

/-- Find the first occurrence of two consecutive stars: returns the
characters before it and the characters after it.  A newline aborts the
search because the regex content class excludes newlines. -/
def splitAtStars : List Char → Option (List Char × List Char)
  | '*' :: '*' :: rest => some ([], rest)
  | '\n' :: _ => none
  | [] => none
  | c :: rest =>
    match splitAtStars rest with
    | some (a, b) => some (c :: a, b)
    | none => none

/-- One pass of re.sub over the bold marker pattern with two stars on
each side and a lazy content group.  The fuel argument only bounds the
recursion (each step consumes at least one character, so fuel equal to
the length is never exhausted). -/
def subBoldFuel : Nat → List Char → List Char
  | 0, l => l
  | _ + 1, [] => []
  | f + 1, '*' :: '*' :: rest =>
    (match splitAtStars rest with
     | some (content, after) => content ++ subBoldFuel f after
     | none => '*' :: subBoldFuel f ('*' :: rest))
  | f + 1, c :: rest => c :: subBoldFuel f rest

def subBold (l : List Char) : List Char := subBoldFuel l.length l

/-- One pass of re.sub over the underscore marker pattern: two
underscores, one or more non-underscore characters, two underscores.
The greedy non-underscore group forces the content to be the full run up
to the next underscore. -/
def subUndFuel : Nat → List Char → List Char
  | 0, l => l
  | _ + 1, [] => []
  | f + 1, '_' :: '_' :: rest =>
    (match rest.takeWhile (fun c => ¬c = '_'), rest.dropWhile (fun c => ¬c = '_') with
     | c :: cs, '_' :: '_' :: rest2 => (c :: cs) ++ subUndFuel f rest2
     | _, _ => '_' :: subUndFuel f ('_' :: rest))
  | f + 1, c :: rest => c :: subUndFuel f rest

def subUnd (l : List Char) : List Char := subUndFuel l.length l

/-- clean_md from build_sections_from_tailored_text: strip bold and
underscore emphasis markers, then strip surrounding whitespace. -/
def clean_md (s : String) : String := ⟨stripL (subUnd (subBold s.data))⟩

/-- re.fullmatch(r'#+', line): a non-empty all-hashes line. -/
def isHashRun (s : String) : Bool := !s.data.isEmpty && s.data.all (fun c => c = '#')

/-- Python regex word character (ASCII \w). -/
def isWordCh (c : Char) : Bool := c.isAlphanum || c = '_'

/-- Two digits, slash, four digits, word boundary after. -/
def dateAlt1 : List Char → Bool
  | a :: b :: '/' :: c :: d :: e :: f :: rest =>
    a.isDigit && b.isDigit && c.isDigit && d.isDigit && e.isDigit && f.isDigit &&
      (match rest with | [] => true | g :: _ => !isWordCh g)
  | _ => false

/-- Four digits, word boundary after. -/
def dateAlt2 : List Char → Bool
  | a :: b :: c :: d :: rest =>
    a.isDigit && b.isDigit && c.isDigit && d.isDigit &&
      (match rest with | [] => true | g :: _ => !isWordCh g)
  | _ => false

/-- The word Present, case-insensitive, word boundary after. -/
def dateAlt3 : List Char → Bool
  | p :: r :: e1 :: s :: e2 :: n :: t :: rest =>
    lowerChar p = 'p' && lowerChar r = 'r' && lowerChar e1 = 'e' &&
      lowerChar s = 's' && lowerChar e2 = 'e' && lowerChar n = 'n' &&
      lowerChar t = 't' &&
      (match rest with | [] => true | g :: _ => !isWordCh g)
  | _ => false

/-- Scan for any of the three date patterns, each with a word boundary
before it (previous character absent or not a word character). -/
def dateScan : Option Char → List Char → Bool
  | _, [] => false
  | prev, c :: rest =>
    ((match prev with | none => true | some pc => !isWordCh pc) &&
      (dateAlt1 (c :: rest) || dateAlt2 (c :: rest) || dateAlt3 (c :: rest))) ||
      dateScan (some c) rest

/-- looks_like_date from build_sections_from_tailored_text: search for
MM/YYYY, a bare 4-digit year, or the word Present (case-insensitive),
each at word boundaries. -/
def looks_like_date (s : String) : Bool := dateScan none s.data

/-- Python str.split(c): full split on a separator character. -/
def splitOnCh (c : Char) : List Char → List (List Char)
  | [] => [[]]
  | x :: r =>
    match splitOnCh c r with
    | [] => [[]]
    | p :: ps => if x = c then [] :: p :: ps else (x :: p) :: ps

/-- Python str.split(c, 1): characters before the first separator and,
when the separator occurs, the characters after it. -/
def splitFirstCh (c : Char) : List Char → List Char × Option (List Char)
  | [] => ([], none)
  | x :: r =>
    if x = c then ([], some r)
    else
      let p := splitFirstCh c r
      (x :: p.1, p.2)

/-- Python str.split(sep, 1) for a multi-character separator: the pieces
around the first occurrence, when there is one. -/
def splitSubOnce (sep : List Char) : List Char → Option (List Char × List Char)
  | [] => none
  | x :: r =>
    if isPreL sep (x :: r) then some ([], (x :: r).drop sep.length)
    else
      match splitSubOnce sep r with
      | some (a, b) => some (x :: a, b)
      | none => none

/-- Python ' | '.join / general separator join. -/
def joinWith (sep : String) : List String → String
  | [] => ""
  | [x] => x
  | x :: y :: rest => x ++ sep ++ joinWith sep (y :: rest)

/-- The `if name and title.lower() == name.lower()` test. -/
def nameMatches (name : Option String) (title : String) : Bool :=
  match name with
  | some n => n ≠ "" && toLowerS title = toLowerS n
  | none => false

/-- Parser state: the sections built so far, the index of the current
section (None after a disallowed header), and the section/entry indices
of the current entry.  Python's `current` and `current_entry` are
references into the sections list; indices model that aliasing. -/
structure TState where
  sections : List Section
  cur : Option Nat
  curEntry : Option (Nat × Nat)
deriving DecidableEq, Repr

def initTState : TState := ⟨[], none, none⟩

def mkSection (title : String) : Section := ⟨title, [], [], [], []⟩

def getSec (ss : List Section) (i : Nat) : Section := ss.getD i emptySection

def modifySec (ss : List Section) (i : Nat) (f : Section → Section) : List Section :=
  match ss.get? i with
  | some s => ss.set i (f s)
  | none => ss

def getEntry (ss : List Section) (si ei : Nat) : Entry :=
  (getSec ss si).entries.getD ei ⟨"", "", "", []⟩

def modifyEntry (ss : List Section) (si ei : Nat) (f : Entry → Entry) : List Section :=
  modifySec ss si (fun s =>
    match s.entries.get? ei with
    | some e => { s with entries := s.entries.set ei (f e) }
    | none => s)

/-- ensure_section: when no section is active, open the fallback
"Tailored Resume" section (new_section resets the current entry). -/
def ensureSection (st : TState) : TState :=
  match st.cur with
  | some _ => st
  | none =>
    { sections := st.sections ++ [mkSection "Tailored Resume"],
      cur := some st.sections.length, curEntry := none }

/-- One iteration of the line loop of build_sections_from_tailored_text. -/
def processLine (allowedSet : List String) (name : Option String)
    (st : TState) (raw : String) : TState :=
  let line0 := strip raw
  if line0 = "" then st
  else
    let line := clean_md line0
    if isHashRun line then st
    else if startsWithS line "# " then st
    else if startsWithS line "## " then
      let title := strip (dropS line 3)
      if nameMatches name title then st
      else if allowedSet = [] ∨ toLowerS title ∈ allowedSet then
        { sections := st.sections ++ [mkSection title],
          cur := some st.sections.length, curEntry := none }
      else { st with cur := none }
    else if startsWithS line "### " then
      let st1 := ensureSection st
      match st1.cur with
      | none => st1
      | some ci =>
        let content := strip (dropS line 4)
        let parts := (splitOnCh '|' content.data).map (fun p => (⟨stripL p⟩ : String))
        let firstP := parts.headD ""
        let lastP := parts.getLastD ""
        let e : Entry :=
          if 2 ≤ parts.length ∧ looks_like_date lastP = true then
            { title := firstP,
              subtitle :=
                if 2 < parts.length then joinWith " | " (parts.drop 1).dropLast else "",
              date := lastP, bullets := [] }
          else
            { title := firstP,
              subtitle := if 1 < parts.length then joinWith " | " (parts.drop 1) else "",
              date := "", bullets := [] }
        { sections := modifySec st1.sections ci
            (fun s => { s with entries := s.entries ++ [e] }),
          cur := some ci,
          curEntry := some (ci, (getSec st1.sections ci).entries.length) }
    else if line = "---" ∨ line = "—" ∨ line = "--" then st
    else if startsWithS line "- " ∨ startsWithS line "* " then
      let st1 := ensureSection st
      match st1.cur with
      | none => st1
      | some ci =>
        let item := strip (dropS line 2)
        if hasSubStr (toLowerS (getSec st1.sections ci).title) "skill" then
          let item2 :=
            if item.data.contains ':' then
              (match splitFirstCh ':' item.data with
               | (_, some rest) => (⟨stripL rest⟩ : String)
               | (_, none) => item)
            else item
          let newSkills := (((splitOnCh ',' item2.data).map (fun p => stripL p)).filter
            (fun p => p ≠ [])).map (fun p => (⟨p⟩ : String))
          { st1 with sections := (modifySec st1.sections ci
              (fun s => { s with skills := s.skills ++ newSkills })) }
        else
          match st1.curEntry with
          | some (si, ei) =>
            { st1 with sections := (modifyEntry st1.sections si ei
                (fun e => { e with bullets := e.bullets ++ [item] })) }
          | none =>
            { st1 with sections := (modifySec st1.sections ci
                (fun s => { s with bullets := s.bullets ++ [item] })) }
    else
      if st.cur = none ∧ allowedSet ≠ [] then st
      else
        let st1 := ensureSection st
        match st1.cur with
        | none => st1
        | some ci =>
          if toLowerS (getSec st1.sections ci).title = "education" ∧
              line.data.contains '|' = true then
            match splitFirstCh '|' line.data with
            | (left0, some right0) =>
              let left : String := ⟨stripL left0⟩
              let right : String := ⟨stripL right0⟩
              let e : Entry :=
                if hasSubStr left " - " then
                  match splitSubOnce (" - ".data) left.data with
                  | some (a, b) =>
                    { title := ⟨stripL a⟩, subtitle := ⟨stripL b⟩, date := right,
                      bullets := [] }
                  | none => { title := left, subtitle := "", date := right, bullets := [] }
                else { title := left, subtitle := "", date := right, bullets := [] }
              { st1 with sections := (modifySec st1.sections ci
                  (fun s => { s with entries := s.entries ++ [e] })) }
            | (_, none) => st1
          else
            match st1.curEntry with
            | some (si, ei) =>
              if looks_like_date line then
                { st1 with sections := (modifyEntry st1.sections si ei
                    (fun e => { e with date := line })) }
              else if (getEntry st1.sections si ei).subtitle = "" then
                { st1 with sections := (modifyEntry st1.sections si ei
                    (fun e => { e with subtitle := line })) }
              else
                { st1 with sections := (modifySec st1.sections ci
                    (fun s => { s with paragraphs := s.paragraphs ++ [line] })) }
            | none =>
              { st1 with sections := (modifySec st1.sections ci
                  (fun s => { s with paragraphs := s.paragraphs ++ [line] })) }

/-- build_sections_from_tailored_text from resume_bot.py: lower the
allow-list, normalize each rstripped line, run the line loop, and return
the sections with the lowered allow-list.  A Python `None` allow-list is
the empty list here (both mean: no filtering). -/
def build_sections_from_tailored_text (text : String) (name : Option String)
    (allowed : List String) : List Section × List String :=
  let allowedSections := allowed.map toLowerS
  let lines := (splitLines text).map (fun l => normalize_text (rstrip l))
  let st := lines.foldl (processLine allowedSections name) initTState
  (st.sections, allowedSections)

/-- C1 (amended): in build_sections_from_tailored_text, after a
'## title' line whose title does not match the non-empty allow-list (no
section active), a subsequent line that is not a section header, entry
header ('### '), or bullet ('- ' / '* ') line leaves the parser state
completely unchanged: it is silently discarded and contributes nothing.
Bullet and entry-header lines in such a region are NOT discarded: they
open a fallback "Tailored Resume" section and are stored in it. -/
theorem tailored_plain_line_discarded (allowedSet : List String)
    (name : Option String) (st : TState) (raw : String)
    (hcur : st.cur = none)
    (hallowed : allowedSet ≠ [])
    (h1 : startsWithS (clean_md (strip raw)) "## " = false)
    (h2 : startsWithS (clean_md (strip raw)) "### " = false)
    (h3 : startsWithS (clean_md (strip raw)) "- " = false)
    (h4 : startsWithS (clean_md (strip raw)) "* " = false) :
    processLine allowedSet name st raw = st := by
  unfold processLine
  by_cases hb : strip raw = ""
  · simp [hb]
  · rw [if_neg hb]
    simp only [h1, h2, h3, h4, Bool.false_eq_true, if_false, false_or, or_self]
    by_cases hh : isHashRun (clean_md (strip raw)) = true
    · simp [hh]
    · simp only [hh, Bool.false_eq_true, if_false]
      by_cases hsharp : startsWithS (clean_md (strip raw)) "# " = true
      · simp [hsharp]
      · simp only [hsharp, Bool.false_eq_true, if_false]
        by_cases hhr : clean_md (strip raw) = "---" ∨ clean_md (strip raw) = "—" ∨
            clean_md (strip raw) = "--"
        · simp [hhr]
        · simp only [hhr, if_false]
          rw [if_pos ⟨hcur, hallowed⟩]

/-- C1 witness: with a non-empty allow-list and no active section, a
plain text line leaves the initial state unchanged. -/
theorem tailored_plain_line_discarded_witness :
    processLine ["good"] none initTState "Some stray narrative line" = initTState :=
  tailored_plain_line_discarded ["good"] none initTState "Some stray narrative line"
    rfl (by decide) (by decide) (by decide) (by decide) (by decide)

/-- C1 counterexample: with allow-list ["good"], the tailored text
"## Bad" followed by the bullet line "- hello" does NOT discard the
bullet: the parser creates a fallback "Tailored Resume" section holding
the bullet "hello", so content from the disallowed region survives into
the output. -/
theorem tailored_bullet_after_disallowed_header_kept :
    build_sections_from_tailored_text "## Bad\n- hello" none ["good"] =
      ([⟨"Tailored Resume", [], ["hello"], [], []⟩], ["good"]) := by
  decide

end ResumeBot
